import Mathlib

/-!
Verification of the SEP copyediting assistant core
(`services/document_parser.py`, `services/gemini_analyzer.py`, `app.py`).

The Python source is shallowly embedded over `List Char` / `String`.
Modelling scope notes:
* Python `str.strip` / `str.lower` are modelled over the ASCII whitespace
  and letter ranges (all strings compared against in the source are ASCII).
* `re.sub` with the concrete patterns of the source is modelled by direct
  left-to-right scanning functions, one per pattern shape.
* External libraries (python-docx, BeautifulSoup, the Gemini SDK) are
  modelled at the data level: a .docx document is a list of paragraphs of
  runs, an HTML document after BeautifulSoup parsing is a list of block
  elements, and the model service is an oracle supplying reply strings.
-/

set_option maxRecDepth 40000

namespace SepCore

/-- ASCII whitespace characters, the model of Python `str.isspace` for the
strings handled here (space, tab, newline, carriage return, vertical tab,
form feed). -/
def isPyWs (c : Char) : Bool :=
  c = ' ' || c = '\t' || c = '\n' || c = '\r' || c = Char.ofNat 11 || c = Char.ofNat 12

/-- The `{` character (written via its code point). -/
def obr : Char := Char.ofNat 123

/-- The `}` character (written via its code point). -/
def cbr : Char := Char.ofNat 125

/-- The `"` character. -/
def qc : Char := Char.ofNat 34

/-- The `\` character. -/
def bsl : Char := Char.ofNat 92

/-- Model of `startsRun c k l` : the first `k` characters of `l` all equal `c`. -/
def startsRun (c : Char) : Nat → List Char → Bool
  | 0, _ => true
  | _ + 1, [] => false
  | k + 1, x :: xs => x = c && startsRun c k xs

/-- Model of `hasRun c k l` : `l` contains `k` adjacent copies of `c`. -/
def hasRun (c : Char) (k : Nat) : List Char → Bool
  | [] => startsRun c k []
  | x :: xs => startsRun c k (x :: xs) || hasRun c k xs

/-- Drop the longest suffix whose characters all satisfy `p`. -/
def dropTrailWhile (p : Char → Bool) : List Char → List Char
  | [] => []
  | x :: xs =>
    let r := dropTrailWhile p xs
    if r = [] && p x then [] else x :: r

/-- Python `str.strip()` (ASCII-whitespace scope). -/
def pyStrip (l : List Char) : List Char :=
  dropTrailWhile isPyWs (l.dropWhile isPyWs)

/-- Python `str.strip()` on `String`. -/
def pyStripStr (s : String) : String := ⟨pyStrip s.data⟩

/-- Python `str.lower()` (ASCII scope). -/
def pyLowerStr (s : String) : String := ⟨s.data.map Char.toLower⟩

/-- If `lit` is a prefix of `s`, return the remainder. -/
def matchLit : List Char → List Char → Option (List Char)
  | [], s => some s
  | _ :: _, [] => none
  | p :: ps, s :: ss => if p = s then matchLit ps ss else none

/-- Try to match the pattern `a`, then any run of whitespace, then `b`,
at the head of `s` (the shape of the regexes `</i>\s*<i>` and
`<i>\s*</i>` in `_clean_italic_tags`, document_parser.py lines 197-203).
Returns the rest of the input after the match. -/
def matchPairTag (a b : List Char) (s : List Char) : Option (List Char) :=
  match matchLit a s with
  | none => none
  | some r => matchLit b (r.dropWhile isPyWs)

/-- One left-to-right pass of `re.sub(a + r'\s*' + b, '', text)`:
at each position, if the pattern matches, the match is removed and
scanning resumes after it (replaced text is not rescanned).  The fuel
argument only forces structural termination; every match consumes at
least one character, so `fuel = length` never runs out. -/
def subPairF (a b : List Char) : Nat → List Char → List Char
  | _, [] => []
  | 0, x :: xs => x :: xs
  | fuel + 1, x :: xs =>
    match matchPairTag a b (x :: xs) with
    | some rest => subPairF a b fuel rest
    | none => x :: subPairF a b fuel xs

/-- Model of `re.sub(a + r'\s*' + b, '', text)` with empty replacement. -/
def subPair (a b : List Char) (l : List Char) : List Char :=
  subPairF a b l.length l

/-- The characters of `"</i>"`. -/
def itagC : List Char := ['<', '/', 'i', '>']

/-- The characters of `"<i>"`. -/
def itagO : List Char := ['<', 'i', '>']

/-- Model of `_clean_italic_tags` (document_parser.py lines 197-203):
first `re.sub(r'</i>\s*<i>', '', text)`, then `re.sub(r'<i>\s*</i>', '', text)`. -/
def cleanItalicL (l : List Char) : List Char :=
  subPair itagO itagC (subPair itagC itagO l)

/-- Model of `_clean_italic_tags` on `String`. -/
def cleanItalicTags (s : String) : String := ⟨cleanItalicL s.data⟩

/-- Helper for `collapseRun`: `k` is the length of the pending run of `c`
already consumed; each maximal run of `c` of length `k` is emitted as
`min k m` copies of `c`. -/
def crAux (c : Char) (m : Nat) : List Char → Nat → List Char
  | [], k => List.replicate (min k m) c
  | x :: xs, k =>
    if x = c then crAux c m xs (k + 1)
    else List.replicate (min k m) c ++ x :: crAux c m xs 0

/-- Replace every maximal run of `k` copies of `c` by `min k m` copies.
With `c = '\n'`, `m = 2` this is `re.sub(r'\n{3,}', '\n\n', text)`;
with `c = ' '`, `m = 1` it is `re.sub(r' +', ' ', text)`
(document_parser.py lines 191-192). -/
def collapseRun (c : Char) (m : Nat) (l : List Char) : List Char :=
  crAux c m l 0

/-- Model of `re.sub(r'\n{3,}', '\n\n', text)` on `String`. -/
def collapseNewlines (s : String) : String := ⟨collapseRun '\n' 2 s.data⟩

/-- Model of `re.sub(r' +', ' ', text)` on `String`. -/
def collapseSpaces (s : String) : String := ⟨collapseRun ' ' 1 s.data⟩

/-- The post-processing tail of `_extract_text_with_formatting`
(document_parser.py lines 188-194): italic-tag cleanup, blank-line
collapsing, space collapsing, then `strip()`. -/
def extractCleanL (l : List Char) : List Char :=
  pyStrip (collapseRun ' ' 1 (collapseRun '\n' 2 (cleanItalicL l)))

/-- The post-processing cleanup on `String`. -/
def extractClean (s : String) : String := ⟨extractCleanL s.data⟩

/-! ## The .docx parser (`parse_docx`, document_parser.py lines 14-75)

python-docx is modelled at the data level: a document is the ordered list
of its paragraphs, and a paragraph is the ordered list of its runs, each
run carrying its text and italic flag.  `Paragraph.text` is the
concatenation of the run texts. -/

/-- One run of a .docx paragraph: its text and whether it is italic. -/
structure DocxRun where
  text : String
  italic : Bool
deriving DecidableEq

/-- A .docx paragraph is the list of its runs. -/
abbrev DocxPara := List DocxRun

/-- Model of `para.text` of python-docx: the concatenation of the run texts. -/
def paraRawText (p : DocxPara) : String :=
  String.join (p.map (·.text))

/-- The formatted text of one paragraph (document_parser.py lines 27-35):
empty runs are skipped, italic runs are wrapped in `<i>...</i>`. -/
def paraFormatted (p : DocxPara) : String :=
  String.join (p.map fun r =>
    if r.text = "" then ""
    else if r.italic then "<i>" ++ r.text ++ "</i>" else r.text)

/-- Model of `all_paragraphs` (line 36): pairs of (stripped raw text, formatted text). -/
def allParagraphs (doc : List DocxPara) : List (String × String) :=
  doc.map fun p => (pyStripStr (paraRawText p), paraFormatted p)

/-- The recognized bibliography headings (line 40). -/
def bibHeadings : List String := ["bibliography", "references", "works cited"]

/-- Model of `raw_text.lower() in bib_headings` (lines 47-48). -/
def isBibHeading (raw : String) : Bool :=
  bibHeadings.contains (pyLowerStr raw)

/-- Backward scan: visit `i, i-1, ...` for `steps` steps, returning the
first index satisfying `pred` (the loops
`for i in range(len(all_paragraphs) - 1, stop, -1)` of lines 46 and 54). -/
def scanDesc (pred : Nat → Bool) : Nat → Nat → Option Nat
  | _, 0 => none
  | i, steps + 1 => if pred i then some i else scanDesc pred (i - 1) steps

/-- The loop body test of lines 47-48 and 55-56: paragraph `i` exists and
its stripped raw text lowercases to a recognized heading. -/
def bibPred (ps : List (String × String)) (i : Nat) : Bool :=
  match ps.get? i with
  | some pr => isBibHeading pr.1
  | none => false

/-- Model of `bib_index` computation (lines 41-58): scan the latter half from the
end (stopping above `len // 2`), then fall back to scanning the whole
document from the end. -/
def findBibIndex (ps : List (String × String)) : Option Nat :=
  let n := ps.length
  match scanDesc (bibPred ps) (n - 1) ((n - 1) - n / 2) with
  | some i => some i
  | none => scanDesc (bibPred ps) (n - 1) n

/-- Model of `'\n\n'.join(parts)` (lines 69 and 72). -/
def joinBlank (xs : List String) : String :=
  String.intercalate "\n\n" xs

/-- Model of `parse_docx` (document_parser.py lines 14-75) over the paragraph model:
split at the found heading index, join each side with blank lines, and
apply `_clean_italic_tags` to both streams. -/
def parseDocx (doc : List DocxPara) : String × String :=
  let ps := allParagraphs doc
  match findBibIndex ps with
  | some i =>
    (cleanItalicTags (joinBlank ((ps.take i).map (·.2))),
     cleanItalicTags (joinBlank ((ps.drop (i + 1)).map (·.2))))
  | none =>
    (cleanItalicTags (joinBlank (ps.map (·.2))), cleanItalicTags "")

/-! ## The HTML parser (`parse_html`, document_parser.py lines 78-169)

BeautifulSoup is modelled at the data level: after parsing, a document is
the ordered list of its block-level elements, each carrying its tag name
and its plain text content.  (Modelling scope: documents whose block
elements hold plain text; the inline transformations of
`_extract_text_with_formatting` lines 175-185 and the inline removals of
lines 102-108 then have no effect.)  `str(soup)` under the lxml parser
wraps the serialized blocks in `<html><body>...</body></html>`, and
`get_text(separator='\n')` joins the text nodes with newlines; both are
modelled at the string level below, so the regex split of lines 142-158
operates on the serialized string exactly as in the source. -/

/-- A block-level element of the parsed HTML document. -/
structure HtmlBlock where
  tag : String
  text : String
deriving DecidableEq

/-- Tags removed before any processing (line 98). -/
def strippedTags : List String := ["script", "style", "meta", "link"]

/-- The tag order of the heading search loop (line 115). -/
def searchTags : List String := ["h1", "h2", "h3", "h4", "h5", "h6", "p", "div"]

/-- The heading search (lines 115-122): for each tag kind in order, scan
the document for an element whose text strips and lowercases to a
recognized heading; the first hit (first matching tag kind, then document
order) is the header. -/
def findBibHeader : List String → List HtmlBlock → Option HtmlBlock
  | [], _ => none
  | t :: ts, bs =>
    match bs.find? (fun b => b.tag = t && isBibHeading (pyStripStr b.text)) with
    | some b => some b
    | none => findBibHeader ts bs

/-- Serialization of one block, as `str(soup)` prints an attribute-less
element. -/
def serializeBlock (b : HtmlBlock) : List Char :=
  '<' :: b.tag.data ++ '>' :: b.text.data ++ '<' :: '/' :: b.tag.data ++ ['>']

/-- Model of `full_html = str(soup)` (line 142): lxml wraps the document in
`<html><body>...</body></html>`. -/
def serializeDoc (bs : List HtmlBlock) : List Char :=
  "<html><body>".data ++ (bs.map serializeBlock).flatten ++ "</body></html>".data

/-- Case-insensitive literal match (the `re.IGNORECASE` flag of line 151):
consume `lit` from the head of `s`, comparing lowercased characters. -/
def eatLitIns : List Char → List Char → Option (List Char)
  | [], s => some s
  | _ :: _, [] => none
  | p :: ps, c :: cs => if c.toLower = p.toLower then eatLitIns ps cs else none

/-- Consume one character satisfying `p`. -/
def eatChar (p : Char → Bool) : List Char → Option (List Char)
  | [] => none
  | c :: cs => if p c then some cs else none

/-- Consume `[^>]*>` : everything up to and including the next `>`. -/
def eatUptoGt : List Char → Option (List Char)
  | [] => none
  | c :: cs => if c = '>' then some cs else eatUptoGt cs

/-- Does `r'<h\d[^>]*>\s*Bibliography\s*</h\d>'` (IGNORECASE) match at the
head of `s`?  (First pattern of lines 143-147.) -/
def matchesHPat (s : List Char) : Bool :=
  (Option.some s |>.bind (eatChar (· = '<'))
    |>.bind (eatChar (·.toLower = 'h'))
    |>.bind (eatChar (·.isDigit))
    |>.bind eatUptoGt
    |>.map (List.dropWhile isPyWs ·)
    |>.bind (eatLitIns "Bibliography".data)
    |>.map (List.dropWhile isPyWs ·)
    |>.bind (eatChar (· = '<'))
    |>.bind (eatChar (· = '/'))
    |>.bind (eatChar (·.toLower = 'h'))
    |>.bind (eatChar (·.isDigit))
    |>.bind (eatChar (· = '>'))).isSome

/-- Does `r'<p[^>]*>\s*<X>\s*Bibliography\s*</X>\s*</p>'` (IGNORECASE)
match at the head of `s`, for `X` the inner tag (`b` or `strong`)?
(Second and third patterns of lines 143-147.) -/
def matchesPInner (inner : String) (s : List Char) : Bool :=
  (Option.some s |>.bind (eatChar (· = '<'))
    |>.bind (eatChar (·.toLower = 'p'))
    |>.bind eatUptoGt
    |>.map (List.dropWhile isPyWs ·)
    |>.bind (eatChar (· = '<'))
    |>.bind (eatLitIns inner.data)
    |>.bind (eatChar (· = '>'))
    |>.map (List.dropWhile isPyWs ·)
    |>.bind (eatLitIns "Bibliography".data)
    |>.map (List.dropWhile isPyWs ·)
    |>.bind (eatChar (· = '<'))
    |>.bind (eatChar (· = '/'))
    |>.bind (eatLitIns inner.data)
    |>.bind (eatChar (· = '>'))
    |>.map (List.dropWhile isPyWs ·)
    |>.bind (eatChar (· = '<'))
    |>.bind (eatChar (· = '/'))
    |>.bind (eatChar (·.toLower = 'p'))
    |>.bind (eatChar (· = '>'))).isSome

/-- Model of `re.search`: the position of the first match of `test`. -/
def fmAux (test : List Char → Bool) : List Char → Nat → Option Nat
  | [], _ => none
  | x :: xs, pos => if test (x :: xs) then some pos else fmAux test xs (pos + 1)

/-- Position of the first match of `test` in `l`. -/
def firstMatchPos (test : List Char → Bool) (l : List Char) : Option Nat :=
  fmAux test l 0

/-- Model of `split_point` (lines 149-154): try the three patterns in order, each
by a full `re.search` over the serialized document. -/
def bibSplitPos (full : List Char) : Option Nat :=
  match firstMatchPos matchesHPat full with
  | some p => some p
  | none =>
    match firstMatchPos (matchesPInner "b") full with
    | some p => some p
    | none => firstMatchPos (matchesPInner "strong") full

/-- Text-node extraction from markup (`soup.get_text(separator='\n')`,
line 187): characters outside `<...>` form text nodes; empty segments
between tags are not nodes.  `inTag` tracks whether the scanner is inside
a tag, `cur` holds the current segment reversed. -/
def gtAux : List Char → Bool → List Char → List (List Char)
  | [], _, cur => if cur.isEmpty then [] else [cur.reverse]
  | x :: xs, true, cur => if x = '>' then gtAux xs false cur else gtAux xs true cur
  | x :: xs, false, cur =>
    if x = '<' then
      if cur.isEmpty then gtAux xs true [] else cur.reverse :: gtAux xs true []
    else gtAux xs false (x :: cur)

/-- Model of `get_text(separator='\n')` over a serialized fragment. -/
def getTextFromHtml (l : List Char) : String :=
  String.intercalate "\n" ((gtAux l false []).map fun cs => (⟨cs⟩ : String))

/-- Model of `_extract_text_with_formatting` (lines 172-194) on a serialized
fragment: get the text, then run the cleanup pipeline. -/
def extractFragment (l : List Char) : String :=
  extractClean (getTextFromHtml l)

/-- The two serialized fragments the split selects (lines 110-164): when
a heading element exists and a pattern matches at a nonzero offset, the
document serialization is cut there (`if split_point:` is false both for
no match and for a match at offset 0); otherwise the whole serialization
is the main fragment and the bibliography fragment is empty. -/
def htmlSplitFrag (bs2 : List HtmlBlock) : List Char × List Char :=
  match findBibHeader searchTags bs2 with
  | some _ =>
    let full := serializeDoc bs2
    match bibSplitPos full with
    | some p =>
      if p ≠ 0 then (full.take p, full.drop p)
      else (full, [])
    | none => (full, [])
  | none => (serializeDoc bs2, [])

/-- Model of `parse_html` (document_parser.py lines 95-169) over the block model:
remove script/style/meta/link elements, split, and extract both sides.
The `for elem in soup.body.descendants` loop of lines 131-139 builds
nothing that is used afterwards and is dropped. -/
def parseHtmlBlocks (bs : List HtmlBlock) : String × String :=
  let fr := htmlSplitFrag (bs.filter fun b => !(strippedTags.contains b.tag))
  (extractFragment fr.1, extractFragment fr.2)

/-- The blocks' nonempty text contents (the text nodes of the document,
in order). -/
def blocksTextSegs (bs : List HtmlBlock) : List (List Char) :=
  (bs.map (·.text.data)).filter (· ≠ [])

/-- The text of a run of blocks as `get_text(separator='\n')` yields it. -/
def blocksText (bs : List HtmlBlock) : String :=
  String.intercalate "\n" ((blocksTextSegs bs).map fun cs => (⟨cs⟩ : String))

/-- A plain paragraph-level block: tag `p` or `div`, text free of markup
characters (so its serialization round-trips literally). -/
def pdivBlock (b : HtmlBlock) : Bool :=
  (b.tag = "p" || b.tag = "div") &&
    b.text.data.all fun c => c ≠ '<' && c ≠ '>' && c ≠ '&'

/-! ## JSON values and `json.loads` (used by `services/gemini_analyzer.py`)

Python's `json.loads` is modelled by a recursive-descent parser over
`List Char` returning `Option Json`.  Modelling scope: numeric literals
are parsed with the full grammar shape (sign, integer part with the
leading-zero rule, optional fraction and exponent) but only the integer
part is retained as the value (every numeric literal in the analysed
replies is an integer); `\uXXXX` escapes map surrogate code points
through `Char.ofNat`'s fallback.  The fuel argument only forces
structural termination and is chosen large enough never to run out. -/

inductive Json where
  | jnull
  | jbool (b : Bool)
  | jnum (n : Int)
  | jstr (s : List Char)
  | jarr (xs : List Json)
  | jobj (kvs : List (List Char × Json))

/-- JSON whitespace (`json.decoder.WHITESPACE`): space, tab, newline,
carriage return. -/
def isJsonWs (c : Char) : Bool :=
  c = ' ' || c = '\t' || c = '\n' || c = '\r'

/-- Hexadecimal digit value. -/
def hexVal (c : Char) : Option Nat :=
  if '0' ≤ c ∧ c ≤ '9' then some (c.toNat - 48)
  else if 'a' ≤ c ∧ c ≤ 'f' then some (c.toNat - 87)
  else if 'A' ≤ c ∧ c ≤ 'F' then some (c.toNat - 70)
  else none

/-- Parse a JSON string body (the cursor is just past the opening quote):
returns the decoded characters and the rest after the closing quote.
Unescaped control characters are rejected (`strict=True`). -/
def pStr : Nat → List Char → Option (List Char × List Char)
  | 0, _ => none
  | _ + 1, [] => none
  | f + 1, c :: cs =>
    if c = qc then some ([], cs)
    else if c = bsl then
      match cs with
      | [] => none
      | e :: cs2 =>
        let simple : Option Char :=
          if e = qc then some qc
          else if e = bsl then some bsl
          else if e = '/' then some '/'
          else if e = 'b' then some (Char.ofNat 8)
          else if e = 'f' then some (Char.ofNat 12)
          else if e = 'n' then some '\n'
          else if e = 'r' then some '\r'
          else if e = 't' then some '\t'
          else none
        match simple with
        | some ch => (pStr f cs2).map fun pr => (ch :: pr.1, pr.2)
        | none =>
          if e = 'u' then
            match cs2 with
            | h1 :: h2 :: h3 :: h4 :: cs3 =>
              match hexVal h1, hexVal h2, hexVal h3, hexVal h4 with
              | some v1, some v2, some v3, some v4 =>
                (pStr f cs3).map fun pr =>
                  (Char.ofNat (((v1 * 16 + v2) * 16 + v3) * 16 + v4) :: pr.1, pr.2)
              | _, _, _, _ => none
            | _ => none
          else none
    else if c.toNat < 32 then none
    else (pStr f cs).map fun pr => (c :: pr.1, pr.2)

/-- A run of decimal digits (at least one). -/
def pDigits : List Char → Option (List Char × List Char)
  | [] => none
  | c :: cs =>
    if c.isDigit then
      some (c :: cs.takeWhile (·.isDigit), cs.dropWhile (·.isDigit))
    else none

/-- Digits of the integer part with the leading-zero rule:
`0` stands alone, otherwise a nonzero digit starts a greedy run. -/
def pIntDigits : List Char → Option (List Char × List Char)
  | [] => none
  | c :: cs =>
    if c = '0' then some ([c], cs)
    else if c.isDigit then some (c :: cs.takeWhile (·.isDigit), cs.dropWhile (·.isDigit))
    else none

/-- Digit characters to a natural number. -/
def digitsToNat (ds : List Char) : Nat :=
  ds.foldl (fun acc c => acc * 10 + (c.toNat - 48)) 0

/-- Parse a JSON number; the value kept is the (signed) integer part. -/
def pNum (s : List Char) : Option (Int × List Char) :=
  let (neg, s1) : Bool × List Char :=
    match s with
    | c :: cs => if c = '-' then (true, cs) else (false, s)
    | [] => (false, s)
  match pIntDigits s1 with
  | none => none
  | some (ds, s2) =>
    let afterFrac : Option (List Char) :=
      match s2 with
      | '.' :: cs => (pDigits cs).map (·.2)
      | _ => some s2
    match afterFrac with
    | none => none
    | some s3 =>
      let afterExp : Option (List Char) :=
        match s3 with
        | c :: cs =>
          if c = 'e' ∨ c = 'E' then
            match cs with
            | d :: cs2 =>
              if d = '+' ∨ d = '-' then (pDigits cs2).map (·.2)
              else (pDigits cs).map (·.2)
            | [] => none
          else some s3
        | [] => some s3
      match afterExp with
      | none => none
      | some s4 =>
        let n : Int := Int.ofNat (digitsToNat ds)
        some (if neg then -n else n, s4)

mutual

/-- Parse one JSON value (leading whitespace allowed). -/
def pVal : Nat → List Char → Option (Json × List Char)
  | 0, _ => none
  | f + 1, s =>
    match s.dropWhile isJsonWs with
    | [] => none
    | c :: cs =>
      if c = obr then pObj f cs
      else if c = '[' then pArr f cs
      else if c = qc then (pStr f cs).map fun pr => (.jstr pr.1, pr.2)
      else if c = 't' then (matchLit "rue".data cs).map fun rest => (.jbool true, rest)
      else if c = 'f' then (matchLit "alse".data cs).map fun rest => (.jbool false, rest)
      else if c = 'n' then (matchLit "ull".data cs).map fun rest => (.jnull, rest)
      else if c = '-' ∨ c.isDigit then (pNum (c :: cs)).map fun pr => (.jnum pr.1, pr.2)
      else none

/-- Parse an array body (the cursor is just past `[`). -/
def pArr : Nat → List Char → Option (Json × List Char)
  | 0, _ => none
  | f + 1, s =>
    match s.dropWhile isJsonWs with
    | ']' :: rest => some (.jarr [], rest)
    | _ => pArrItems f s []

/-- Parse the remaining items of a non-empty array. -/
def pArrItems : Nat → List Char → List Json → Option (Json × List Char)
  | 0, _, _ => none
  | f + 1, s, acc =>
    match pVal f s with
    | none => none
    | some (v, rest) =>
      match rest.dropWhile isJsonWs with
      | ',' :: rest2 => pArrItems f rest2 (v :: acc)
      | ']' :: rest2 => some (.jarr (v :: acc).reverse, rest2)
      | _ => none

/-- Parse an object body (the cursor is just past `{`). -/
def pObj : Nat → List Char → Option (Json × List Char)
  | 0, _ => none
  | f + 1, s =>
    match s.dropWhile isJsonWs with
    | c :: rest =>
      if c = cbr then some (.jobj [], rest)
      else pObjItems f s []
    | [] => none

/-- Parse the remaining members of a non-empty object. -/
def pObjItems : Nat → List Char → List (List Char × Json) →
    Option (Json × List Char)
  | 0, _, _ => none
  | f + 1, s, acc =>
    match s.dropWhile isJsonWs with
    | c :: cs =>
      if c = qc then
        match pStr f cs with
        | none => none
        | some (key, rest) =>
          match rest.dropWhile isJsonWs with
          | ':' :: rest2 =>
            match pVal f rest2 with
            | none => none
            | some (v, rest3) =>
              match rest3.dropWhile isJsonWs with
              | ',' :: rest4 => pObjItems f rest4 ((key, v) :: acc)
              | c2 :: rest4 =>
                if c2 = cbr then some (.jobj ((key, v) :: acc).reverse, rest4)
                else none
              | [] => none
          | _ => none
      else none
    | [] => none

end

/-- Model of `json.loads`: parse one value and require only whitespace after it
("Extra data" otherwise). -/
def jsonLoads (s : List Char) : Option Json :=
  match pVal (2 * s.length + 8) s with
  | none => none
  | some (v, rest) => if rest.dropWhile isJsonWs = [] then some v else none

/-- Python truthiness of a parsed JSON value. -/
def jsonTruthy : Json → Bool
  | .jnull => false
  | .jbool b => b
  | .jnum n => n ≠ 0
  | .jstr s => s ≠ []
  | .jarr xs => !xs.isEmpty
  | .jobj kvs => !kvs.isEmpty

/-- Model of `dict.get`: later bindings shadow earlier ones (as Python dict
construction from parsed members overwrites duplicates). -/
def dictGet (kvs : List (List Char × Json)) (k : List Char) : Option Json :=
  match kvs with
  | [] => none
  | (k', v) :: rest =>
    match dictGet rest k with
    | some v2 => some v2
    | none => if k' = k then some v else none

/-- Index of the first occurrence of `c`. -/
def idxOf (c : Char) : List Char → Option Nat
  | [] => none
  | x :: xs =>
    if x = c then some 0
    else (idxOf c xs).map (· + 1)

/-- Index of the last occurrence of `c`. -/
def lastIdxOf (c : Char) : List Char → Option Nat
  | [] => none
  | x :: xs =>
    match lastIdxOf c xs with
    | some j => some (j + 1)
    | none => if x = c then some 0 else none

/-- Count of occurrences of `c` (`str.count` with a single character). -/
def countC (c : Char) (l : List Char) : Nat :=
  (l.filter (· = c)).length

/-! ## The response normalizer (`services/gemini_analyzer.py`) -/

/-- The Python exceptions the modelled code can raise. -/
inductive PyExc where
  | jsonDecodeError
  | attributeError
  | typeError
  | valueError
deriving DecidableEq

/-- Model of `AnalysisResult` (gemini_analyzer.py lines 12-34): field values are
the parsed JSON values (Python objects). -/
structure AnalysisResult where
  total_citations : Json
  total_bibliography : Json
  orphan_citations : Json
  orphan_bibliography : Json
  format_issues : Json
  error : Option Json

/-- Python `len()` on a parsed JSON value: sized values only, others
raise `TypeError`. -/
def pyLen : Json → Except PyExc Int
  | .jstr s => .ok s.length
  | .jarr xs => .ok xs.length
  | .jobj kvs => .ok kvs.length
  | _ => .error .typeError

/-- Model of `AnalysisResult.__init__` (lines 15-30): read the `counts` object
(`AttributeError` if present but not a dict, as `.get` is missing),
then let the legacy item arrays override the scalar counts
(`len()` raises `TypeError` on an unsized `citations_found`);
`bibliography_entries` overrides only when it is a list. -/
def mkAnalysisResult : Json → Except PyExc AnalysisResult
  | .jobj kvs =>
    (match (dictGet kvs "counts".data).getD (.jobj []) with
     | .jobj ckvs =>
       (match (match dictGet kvs "citations_found".data with
               | some v => (pyLen v).map fun n => Json.jnum n
               | none => .ok ((dictGet ckvs "citations".data).getD (.jnum 0))) with
        | .error e => .error e
        | .ok tc =>
          .ok { total_citations := tc
                total_bibliography :=
                  match dictGet kvs "bibliography_entries".data with
                  | some (.jarr xs) => .jnum xs.length
                  | _ => (dictGet ckvs "bibliography_entries".data).getD (.jnum 0)
                orphan_citations := (dictGet kvs "orphan_citations".data).getD (.jarr [])
                orphan_bibliography :=
                  (dictGet kvs "orphan_bibliography".data).getD (.jarr [])
                format_issues := (dictGet kvs "format_issues".data).getD (.jarr [])
                error := dictGet kvs "error".data })
     | _ => .error .attributeError)
  | _ => .error .attributeError

/-- The error-dict results built at lines 125-127 and 130-132
(`AnalysisResult({'error': ...})`); the interpolated exception text is
not modelled. -/
def mkErrorResult (msg : List Char) : AnalysisResult :=
  { total_citations := .jnum 0
    total_bibliography := .jnum 0
    orphan_citations := .jarr []
    orphan_bibliography := .jarr []
    format_issues := .jarr []
    error := some (.jstr msg) }

/-- Message of the `ResponseParseFailure` branch (line 126). -/
def parseFailMsg : List Char :=
  "Failed to parse LLM response as JSON. The document may be too large - try a shorter section.".data

/-- Message of the catch-all branch (line 131). -/
def analysisFailMsg : List Char := "Analysis failed".data

/-- Depth-tracked scan of `_extract_json` (lines 158-169): position of
the character where the brace depth returns to zero, counting braces
regardless of string context.  `depth` is an integer as in the source. -/
def braceScanAux : List Char → Nat → Int → Option Nat
  | [], _, _ => none
  | c :: cs, pos, depth =>
    if c = obr then braceScanAux cs (pos + 1) (depth + 1)
    else if c = cbr then
      (if depth - 1 = 0 then some pos else braceScanAux cs (pos + 1) (depth - 1))
    else braceScanAux cs (pos + 1) depth

/-- Model of `_extract_json` (gemini_analyzer.py lines 134-171): strip fenced
code-block markers, try a direct parse, then scan from the first `{` to
the brace-depth-balanced `}` and try that slice once. -/
def extractJson (text : List Char) : Option Json :=
  if text = [] then none
  else
    let t1 := pyStrip text
    let t2 :=
      match matchLit "```json".data t1 with
      | some rest => rest
      | none =>
        match matchLit "```".data t1 with
        | some rest => rest
        | none => t1
    let t3 :=
      match matchLit "```".data.reverse t2.reverse with
      | some _ => t2.take (t2.length - 3)
      | none => t2
    let t4 := pyStrip t3
    match jsonLoads t4 with
    | some v => some v
    | none =>
      match idxOf obr t4 with
      | none => none
      | some start =>
        match braceScanAux (t4.drop start) 0 0 with
        | none => none
        | some r => jsonLoads ((t4.drop start).take (r + 1))

/-- Model of `re.search(r'\{[\s\S]*\}', text)` (line 185): the greedy match runs
from the first `{` to the last `}` after it, if any. -/
def braceSpan (text : List Char) : Option (List Char) :=
  match idxOf obr text with
  | none => none
  | some i =>
    let tail := text.drop i
    match lastIdxOf cbr tail with
    | none => none
    | some j => if j = 0 then none else some (tail.take (j + 1))

/-- Count of unescaped quotes, tracking the previous character
(line 209: a quote preceded by a backslash does not toggle). -/
def unescQuotes : List Char → Option Char → Nat
  | [], _ => 0
  | c :: cs, prev =>
    (if c = qc ∧ prev ≠ some bsl then 1 else 0) + unescQuotes cs (some c)

/-- The in-string test of lines 205-211: scan the text after the last
newline (backward until `'\n'` in the source) for an odd count of
unescaped quotes. -/
def inStringTest (t : List Char) : Bool :=
  let lineRev := t.reverse.takeWhile (· ≠ '\n')
  unescQuotes lineRev.reverse none % 2 = 1

/-- The "third try" candidate of `_try_repair_json` (lines 193-219):
drop everything before the first `{`, close the open string if the text
ends inside one, then append one `]` per unmatched `[` and one `}` per
unmatched `{`, in that order.  Negative open counts append nothing, as
`str * n` does for `n <= 0`. -/
def repairTail (text : List Char) : Option (List Char) :=
  match idxOf obr text with
  | none => none
  | some start =>
    let truncated := text.drop start
    let openBraces : Int := (countC obr truncated : Int) - (countC cbr truncated : Int)
    let openBrackets : Int := (countC '[' truncated : Int) - (countC ']' truncated : Int)
    let t2 := truncated ++ (if inStringTest truncated then [qc] else [])
    some (t2 ++ List.replicate openBrackets.toNat ']' ++
      List.replicate openBraces.toNat cbr)

/-- Model of `_try_repair_json` (gemini_analyzer.py lines 173-225): direct parse,
then the first-`{`-to-last-`}` span, then the truncation repair; `None`
when every attempt fails to parse. -/
def tryRepairJson (text : List Char) : Option Json :=
  if text = [] then none
  else
    match jsonLoads text with
    | some v => some v
    | none =>
      let third : Option Json :=
        match repairTail text with
        | none => none
        | some t3 => jsonLoads t3
      match braceSpan text with
      | some span =>
        (match jsonLoads span with
         | some v => some v
         | none => third)
      | none => third

/-- The response-handling path of `analyze_document` (gemini_analyzer.py
lines 104-132), given the raw reply text: the `try` body attempts
extraction then a direct parse; `except json.JSONDecodeError` runs the
repair — where a repair result that is not a well-formed dict raises
*outside* any handler and propagates (`.error`) — and `except
Exception` degrades everything else to an error-field result.  The
model-transport call itself is abstracted into the given reply. -/
def analyzeReply (resultText : List Char) : Except PyExc AnalysisResult :=
  let tryBlock : Except PyExc AnalysisResult :=
    match extractJson resultText with
    | some rd =>
      if jsonTruthy rd then mkAnalysisResult rd
      else
        match jsonLoads resultText with
        | some v => mkAnalysisResult v
        | none => .error .jsonDecodeError
    | none =>
      match jsonLoads resultText with
      | some v => mkAnalysisResult v
      | none => .error .jsonDecodeError
  match tryBlock with
  | .ok r => .ok r
  | .error .jsonDecodeError =>
    (match tryRepairJson resultText with
     | some repaired =>
       if jsonTruthy repaired then mkAnalysisResult repaired
       else .ok (mkErrorResult parseFailMsg)
     | none => .ok (mkErrorResult parseFailMsg))
  | .error _ => .ok (mkErrorResult analysisFailMsg)

/-- Did the computation raise a `TypeError`? -/
def raisedTypeError : Except PyExc AnalysisResult → Bool
  | .error .typeError => true
  | _ => false

/-- Did the computation raise an `AttributeError`? -/
def raisedAttributeError : Except PyExc AnalysisResult → Bool
  | .error .attributeError => true
  | _ => false

/-- Did the computation return normally with the `error` field set? -/
def errorFieldSet : Except PyExc AnalysisResult → Bool
  | .ok r => r.error.isSome
  | .error _ => false

/-- The truncated reply of the repair scenario (spec section 8):
`{"counts":{"citations":3,"bibliography_entries":5},"orphan_citations":[{"citation":"Smith 2020","location":"p3` -/
def c1ReplyText : String :=
  "\x7b\"counts\":\x7b\"citations\":3,\"bibliography_entries\":5\x7d,\"orphan_citations\":[\x7b\"citation\":\"Smith 2020\",\"location\":\"p3"

/-- A reply on which the repair path hands a dict with a non-sized
`citations_found` to `AnalysisResult` inside the `except` handler:
`x {"a": "}", "citations_found": 3}`. -/
def c5FailingReply : String :=
  "x \x7b\"a\": \"\x7d\", \"citations_found\": 3\x7d"

/-! ## The HTML byte-decoding chain (`parse_html`, lines 86-93) -/

/-- A byte. -/
abbrev Byte := Fin 256

/-- Which decoding branch produced the text. -/
inductive DecodeBranch where
  | utf8Branch
  | latin1Branch
  | cp1252Branch
  | replacedBranch
deriving DecidableEq

/-- Strict UTF-8 decoding (Python `bytes.decode('utf-8')`): rejects
continuation bytes in lead position, overlong encodings, surrogates and
code points above U+10FFFF.  The fuel equals the byte count and cannot
run out (each step consumes at least one byte). -/
def utf8Aux : Nat → List Byte → Option (List Char)
  | _, [] => some []
  | 0, _ :: _ => none
  | f + 1, b :: bs =>
    let n := b.val
    if n < 0x80 then (utf8Aux f bs).map (Char.ofNat n :: ·)
    else if n < 0xC2 then none
    else if n < 0xE0 then
      match bs with
      | b2 :: bs2 =>
        if 0x80 ≤ b2.val ∧ b2.val < 0xC0 then
          (utf8Aux f bs2).map (Char.ofNat ((n - 0xC0) * 64 + (b2.val - 0x80)) :: ·)
        else none
      | [] => none
    else if n < 0xF0 then
      match bs with
      | b2 :: b3 :: bs2 =>
        let lo2 := if n = 0xE0 then 0xA0 else 0x80
        let hi2 := if n = 0xED then 0x9F else 0xBF
        if lo2 ≤ b2.val ∧ b2.val ≤ hi2 ∧ 0x80 ≤ b3.val ∧ b3.val < 0xC0 then
          (utf8Aux f bs2).map
            (Char.ofNat (((n - 0xE0) * 64 + (b2.val - 0x80)) * 64 + (b3.val - 0x80)) :: ·)
        else none
      | _ => none
    else if n < 0xF5 then
      match bs with
      | b2 :: b3 :: b4 :: bs2 =>
        let lo2 := if n = 0xF0 then 0x90 else 0x80
        let hi2 := if n = 0xF4 then 0x8F else 0xBF
        if lo2 ≤ b2.val ∧ b2.val ≤ hi2 ∧ 0x80 ≤ b3.val ∧ b3.val < 0xC0 ∧
            0x80 ≤ b4.val ∧ b4.val < 0xC0 then
          (utf8Aux f bs2).map
            (Char.ofNat ((((n - 0xF0) * 64 + (b2.val - 0x80)) * 64 + (b3.val - 0x80)) * 64 +
              (b4.val - 0x80)) :: ·)
        else none
      | _ => none
    else none

/-- Model of `bytes.decode('utf-8')`. -/
def decodeUtf8 (bs : List Byte) : Option (List Char) :=
  utf8Aux bs.length bs

/-- Model of `bytes.decode('latin-1')`: every byte maps to the code point of the
same value; the codec is total. -/
def decodeLatin1 (bs : List Byte) : Option (List Char) :=
  some (bs.map fun b => Char.ofNat b.val)

/-- Model of `bytes.decode('cp1252')`: the 0x80-0x9F range maps through the
Windows-1252 table; bytes 0x81, 0x8D, 0x8F, 0x90 and 0x9D are undefined
and make the strict decode raise. -/
def cp1252Char (b : Byte) : Option Char :=
  let n := b.val
  if n < 0x80 ∨ 0xA0 ≤ n then some (Char.ofNat n)
  else
    match n with
    | 0x80 => some (Char.ofNat 0x20AC)
    | 0x82 => some (Char.ofNat 0x201A)
    | 0x83 => some (Char.ofNat 0x0192)
    | 0x84 => some (Char.ofNat 0x201E)
    | 0x85 => some (Char.ofNat 0x2026)
    | 0x86 => some (Char.ofNat 0x2020)
    | 0x87 => some (Char.ofNat 0x2021)
    | 0x88 => some (Char.ofNat 0x02C6)
    | 0x89 => some (Char.ofNat 0x2030)
    | 0x8A => some (Char.ofNat 0x0160)
    | 0x8B => some (Char.ofNat 0x2039)
    | 0x8C => some (Char.ofNat 0x0152)
    | 0x8E => some (Char.ofNat 0x017D)
    | 0x91 => some (Char.ofNat 0x2018)
    | 0x92 => some (Char.ofNat 0x2019)
    | 0x93 => some (Char.ofNat 0x201C)
    | 0x94 => some (Char.ofNat 0x201D)
    | 0x95 => some (Char.ofNat 0x2022)
    | 0x96 => some (Char.ofNat 0x2013)
    | 0x97 => some (Char.ofNat 0x2014)
    | 0x98 => some (Char.ofNat 0x02DC)
    | 0x99 => some (Char.ofNat 0x2122)
    | 0x9A => some (Char.ofNat 0x0161)
    | 0x9B => some (Char.ofNat 0x203A)
    | 0x9C => some (Char.ofNat 0x0153)
    | 0x9E => some (Char.ofNat 0x017E)
    | 0x9F => some (Char.ofNat 0x0178)
    | _ => none

/-- Model of `bytes.decode('cp1252')` over a byte string. -/
def decodeCp1252 (bs : List Byte) : Option (List Char) :=
  bs.mapM cp1252Char

/-- Model of `bytes.decode('utf-8', errors='replace')`: invalid positions yield
U+FFFD and scanning resumes at the next byte (an approximation of the
handler's chunking; the branch is unreachable, see below). -/
def utf8Replace : Nat → List Byte → List Char
  | _, [] => []
  | 0, _ :: _ => []
  | f + 1, b :: bs =>
    match utf8Aux (f + 1) (b :: bs) with
    | some s => s
    | none => Char.ofNat 0xFFFD :: utf8Replace f bs

/-- The decoding chain of `parse_html` lines 86-93: utf-8, then
latin-1, then cp1252, with a utf-8-replace fallback after the loop. -/
def decodeHtmlBytes (bs : List Byte) : List Char × DecodeBranch :=
  match decodeUtf8 bs with
  | some s => (s, .utf8Branch)
  | none =>
    match decodeLatin1 bs with
    | some s => (s, .latin1Branch)
    | none =>
      match decodeCp1252 bs with
      | some s => (s, .cp1252Branch)
      | none => (utf8Replace bs.length bs, .replacedBranch)

/-! ## The analyze route (`app.py`, lines 71-123)

The Flask plumbing is modelled at the data level: a request carries the
file-presence flag, the filename and the file content; the two possible
model calls are abstracted into oracle reply strings, and the list of
calls actually made is returned alongside the response. -/

/-- One uploaded file, as both external libraries interpret its bytes. -/
structure RawFile where
  docx : List DocxPara
  soup : List HtmlBlock

/-- The `/analyze` request data (lines 76-89). -/
structure AnalyzeRequest where
  hasFile : Bool
  filename : String
  file : RawFile

/-- The calls made to the external model service. -/
inductive ModelCall where
  | classify
  | analysis
deriving DecidableEq

/-- The response kinds the route can produce. -/
inductive ErrKind where
  | noFile
  | noFilename
  | badExtension
  | bibNotFound
  | resultError
  | valueErr
  | analysisFailed
deriving DecidableEq

/-- A route response: a JSON result or an error with its HTTP status. -/
inductive AppResponse where
  | ok (r : AnalysisResult)
  | err (code : Nat) (kind : ErrKind)

/-- Python `str.endswith`. -/
def strEndsWith (suffix s : String) : Bool :=
  (matchLit suffix.data.reverse s.data.reverse).isSome

/-- Model of `get_document_text` (document_parser.py lines 216-234): dispatch on
the lowered filename extension, raising `ValueError` otherwise. -/
def getDocumentText (f : RawFile) (filename : String) : Except PyExc (String × String) :=
  let fl := pyLowerStr filename
  if strEndsWith ".docx" fl then .ok (parseDocx f.docx)
  else if strEndsWith ".html" fl || strEndsWith ".htm" fl then .ok (parseHtmlBlocks f.soup)
  else .error .valueError

/-- The sentinel of the classification call. -/
def sentinelStr : String := "NO_BIBLIOGRAPHY_FOUND"

/-- Model of `detect_bibliography_section` (gemini_analyzer.py lines 227-258)
given the model's reply: strip it and translate the sentinel to `None`.
(Transport failures, also mapped to `None`, are not modelled.) -/
def detectBibliographySection (reply : String) : Option String :=
  let result := pyStripStr reply
  if result = sentinelStr then none else some result

/-- The analysis call and result handling (app.py lines 112-118): run
`analyze_document` on the oracle reply; an uncaught exception reaches
the route's `except Exception` (line 122, status 500), a result with a
truthy `error` is reported with status 500, otherwise the result is
returned. -/
def appRunAnalysis (analyzeReplyText : String) (calls : List ModelCall) :
    AppResponse × List ModelCall :=
  match analyzeReply analyzeReplyText.data with
  | .error _ => (.err 500 .analysisFailed, calls ++ [.analysis])
  | .ok r =>
    match r.error with
    | some e =>
      if jsonTruthy e then (.err 500 .resultError, calls ++ [.analysis])
      else (.ok r, calls ++ [.analysis])
    | none => (.ok r, calls ++ [.analysis])

/-- The `/analyze` route (app.py lines 71-123): file and extension
checks, document split, classification fallback for an empty
bibliography stream — returning the `BibliographyNotFound` error when
the classification yields nothing — then the analysis call. -/
def appAnalyze (req : AnalyzeRequest) (detectReply analyzeReplyText : String) :
    AppResponse × List ModelCall :=
  if !req.hasFile then (.err 400 .noFile, [])
  else if req.filename = "" then (.err 400 .noFilename, [])
  else if !(strEndsWith ".docx" (pyLowerStr req.filename) ||
            strEndsWith ".html" (pyLowerStr req.filename) ||
            strEndsWith ".htm" (pyLowerStr req.filename)) then
    (.err 400 .badExtension, [])
  else
    match getDocumentText req.file req.filename with
    | .error _ => (.err 400 .valueErr, [])
    | .ok (_, bibText) =>
      if pyStripStr bibText = "" then
        match detectBibliographySection detectReply with
        | some det =>
          if det = "" then (.err 400 .bibNotFound, [.classify])
          else appRunAnalysis analyzeReplyText [.classify]
        | none => (.err 400 .bibNotFound, [.classify])
      else appRunAnalysis analyzeReplyText []

/-- A concrete request whose document has no bibliography heading. -/
def c6Req : AnalyzeRequest :=
  { hasFile := true
    filename := "doc.docx"
    file := { docx := [[⟨"hello", false⟩]], soup := [] } }

/-- An eleven-paragraph document with a "Bibliography" heading at index
6 and a "References" heading at index 8. -/
def docC3 : List DocxPara :=
  [[⟨"a0", false⟩], [⟨"a1", false⟩], [⟨"a2", false⟩], [⟨"a3", false⟩],
   [⟨"a4", false⟩], [⟨"a5", false⟩], [⟨"Bibliography", false⟩],
   [⟨"a7", false⟩], [⟨"References", false⟩], [⟨"a9", false⟩], [⟨"a10", false⟩]]

/-! ### Run lemmas for the whitespace pipeline -/

theorem hasRun_zero (d : Char) (l : List Char) : hasRun d 0 l = true := by
  cases l <;> simp [hasRun, startsRun]

theorem hasRun_tail {d : Char} {K : Nat} {x : Char} {t : List Char}
    (h : hasRun d K t = true) : hasRun d K (x :: t) = true := by
  simp [hasRun, h]

theorem startsRun_append_right {c : Char} {k : Nat} {s : List Char}
    (h : startsRun c k s = true) (t : List Char) :
    startsRun c k (s ++ t) = true := by
  induction s generalizing k with
  | nil =>
    cases k with
    | zero => simp [startsRun]
    | succ k => simp [startsRun] at h
  | cons x xs ih =>
    cases k with
    | zero => simp [startsRun]
    | succ k =>
      simp [startsRun] at h ⊢
      exact ⟨h.1, ih h.2⟩

theorem hasRun_append_right {d : Char} {K : Nat} {A : List Char}
    (h : hasRun d K A = true) (t : List Char) : hasRun d K (A ++ t) = true := by
  induction A with
  | nil =>
    cases K with
    | zero => exact hasRun_zero d t
    | succ K => simp [hasRun, startsRun] at h
  | cons x xs ih =>
    simp [hasRun] at h
    rcases h with h | h
    · simp [hasRun]
      exact Or.inl (startsRun_append_right (by simpa [startsRun] using h) t)
    · exact hasRun_tail (ih h)

theorem hasRun_append_left {d : Char} {K : Nat} {t : List Char}
    (h : hasRun d K t = true) (A : List Char) : hasRun d K (A ++ t) = true := by
  induction A with
  | nil => simpa using h
  | cons x xs ih => exact hasRun_tail ih

theorem startsRun_replicate {c : Char} {K j : Nat} (h : K ≤ j) :
    startsRun c K (List.replicate j c) = true := by
  induction K generalizing j with
  | zero => simp [startsRun]
  | succ K ih =>
    cases j with
    | zero => omega
    | succ j => simp [List.replicate, startsRun]; exact ih (by omega)

theorem hasRun_replicate_ne {d c : Char} {K j : Nat} (hne : d ≠ c) (hK : 1 ≤ K) :
    hasRun d K (List.replicate j c) = false := by
  induction j with
  | zero =>
    cases K with
    | zero => omega
    | succ K => simp [hasRun, startsRun]
  | succ j ih =>
    cases K with
    | zero => omega
    | succ K =>
      simp [List.replicate, hasRun, startsRun, ih]
      intro hcd
      exact absurd hcd.symm hne

theorem startsRun_le_length {c : Char} {K : Nat} {l : List Char}
    (h : startsRun c K l = true) : K ≤ l.length := by
  induction l generalizing K with
  | nil =>
    cases K with
    | zero => simp
    | succ K => simp [startsRun] at h
  | cons x xs ih =>
    cases K with
    | zero => simp
    | succ K =>
      simp [startsRun] at h
      have := ih h.2
      simp [List.length_cons]
      omega

theorem hasRun_replicate_imp {c : Char} {K j : Nat}
    (h : hasRun c K (List.replicate j c) = true) : K ≤ j := by
  induction j with
  | zero =>
    cases K with
    | zero => omega
    | succ K => simp [hasRun, startsRun] at h
  | succ j ih =>
    simp [List.replicate, hasRun] at h
    rcases h with h | h
    · have := startsRun_le_length h
      simpa using this
    · exact Nat.le_succ_of_le (ih h)

theorem hasRun_replicate_le {c : Char} {m j : Nat} (h : j ≤ m) :
    hasRun c (m + 1) (List.replicate j c) = false := by
  rcases Bool.eq_false_or_eq_true (hasRun c (m + 1) (List.replicate j c)) with ht | hf
  · have := hasRun_replicate_imp ht
    omega
  · exact hf

theorem hasRun_of_starts {c : Char} {K : Nat} {l : List Char}
    (h : startsRun c K l = true) : hasRun c K l = true := by
  cases l <;> simp [hasRun, h]

theorem replicate_succ_append (c : Char) (k : Nat) :
    List.replicate (k + 1) c = List.replicate k c ++ [c] := by
  induction k with
  | zero => simp
  | succ k ih => simp [List.replicate_succ]; simpa [List.replicate_succ] using ih

theorem startsRun_over {c x : Char} {B : List Char} (hx : x ≠ c) :
    ∀ {j K : Nat}, j < K → startsRun c K (List.replicate j c ++ x :: B) = false := by
  intro j
  induction j with
  | zero =>
    intro K hK
    cases K with
    | zero => omega
    | succ K => simp [startsRun]; intro h; exact absurd h hx
  | succ j ih =>
    intro K hK
    cases K with
    | zero => omega
    | succ K =>
      simp [List.replicate_succ, startsRun]
      exact ih (by omega)

theorem hasRun_c_over {c x : Char} {m : Nat} {B : List Char} :
    ∀ {j : Nat}, j ≤ m → x ≠ c → hasRun c (m + 1) B = false →
    hasRun c (m + 1) (List.replicate j c ++ x :: B) = false := by
  intro j
  induction j with
  | zero =>
    intro _ hx hB
    simp [hasRun, startsRun, hB]
    intro h
    exact absurd h hx
  | succ j ih =>
    intro hj hx hB
    rw [List.replicate_succ, List.cons_append]
    have h1 : startsRun c m (List.replicate j c ++ x :: B) = false :=
      startsRun_over hx (by omega)
    have h2 : hasRun c (m + 1) (List.replicate j c ++ x :: B) = false :=
      ih (by omega) hx hB
    simp [hasRun, startsRun, h1, h2]

theorem crAux_no_run (c : Char) (m : Nat) :
    ∀ (l : List Char) (k : Nat), hasRun c (m + 1) (crAux c m l k) = false := by
  intro l
  induction l with
  | nil =>
    intro k
    simp [crAux]
    exact hasRun_replicate_le (Nat.min_le_right k m)
  | cons x t ih =>
    intro k
    by_cases hx : x = c
    · simpa [crAux, hx] using ih (k + 1)
    · simp [crAux, hx]
      exact hasRun_c_over (Nat.min_le_right k m) hx (ih 0)

theorem hasRun_strip_replicate {d c : Char} {K : Nat} {rest : List Char}
    (hdc : d ≠ c) :
    ∀ j, hasRun d K (List.replicate j c ++ rest) = true → hasRun d K rest = true := by
  intro j
  induction j with
  | zero => intro h; simpa using h
  | succ j ih =>
    intro h
    simp [List.replicate_succ, hasRun] at h
    rcases h with h | h
    · cases K with
      | zero => exact hasRun_zero d rest
      | succ K =>
        simp [startsRun] at h
        exact absurd h.1.symm hdc
    · exact ih h

theorem crAux_id {c : Char} {m : Nat} :
    ∀ (l : List Char) (k : Nat),
      hasRun c (m + 1) (List.replicate k c ++ l) = false →
      crAux c m l k = List.replicate k c ++ l := by
  intro l
  induction l with
  | nil =>
    intro k h
    have hk : k ≤ m := by
      by_contra hgt
      have h1 : startsRun c (m + 1) (List.replicate k c) = true :=
        startsRun_replicate (by omega)
      have h2 := hasRun_of_starts (startsRun_append_right h1 [])
      rw [h] at h2
      exact Bool.false_ne_true h2
    simp [crAux, Nat.min_eq_left hk]
  | cons x t ih =>
    intro k h
    by_cases hx : x = c
    · subst hx
      have hrw : List.replicate k x ++ x :: t = List.replicate (k + 1) x ++ t := by
        simp [replicate_succ_append]
      rw [hrw] at h ⊢
      simpa [crAux] using ih (k + 1) h
    · have hk : k ≤ m := by
        by_contra hgt
        have h1 : startsRun c (m + 1) (List.replicate k c) = true :=
          startsRun_replicate (by omega)
        have h2 := hasRun_of_starts (startsRun_append_right h1 (x :: t))
        rw [h] at h2
        exact Bool.false_ne_true h2
      have ht : hasRun c (m + 1) t = false := by
        by_contra hT
        have hT' : hasRun c (m + 1) t = true := by
          rcases Bool.eq_false_or_eq_true (hasRun c (m + 1) t) with h1 | h1
          · exact h1
          · exact absurd h1 hT
        have := hasRun_append_left hT' (List.replicate k c ++ [x])
        rw [List.append_assoc] at this
        simp at this
        rw [h] at this
        exact Bool.false_ne_true this
      simp [crAux, hx, Nat.min_eq_left hk, ih 0 (by simpa using ht)]

theorem crAux_one_head (c : Char) :
    ∀ (ys : List Char) (k : Nat), ∃ rest, crAux c 1 ys (k + 1) = c :: rest := by
  intro ys
  induction ys with
  | nil =>
    intro k
    refine ⟨[], ?_⟩
    have : min (k + 1) 1 = 1 := by omega
    simp [crAux, this]
  | cons y t ih =>
    intro k
    by_cases hy : y = c
    · simpa [crAux, hy] using ih (k + 1)
    · refine ⟨y :: crAux c 1 t 0, ?_⟩
      have : min (k + 1) 1 = 1 := by omega
      simp [crAux, hy, this]

theorem startsRun_crAux0 {d c : Char} (hdc : d ≠ c) :
    ∀ (xs : List Char) {j : Nat},
      startsRun d j (crAux c 1 xs 0) = true → startsRun d j xs = true := by
  intro xs
  induction xs with
  | nil =>
    intro j h
    simpa [crAux] using h
  | cons y t ih =>
    intro j h
    by_cases hy : y = c
    · cases j with
      | zero => simp [startsRun]
      | succ j =>
        obtain ⟨rest, hrest⟩ := crAux_one_head c t 0
        rw [show crAux c 1 (y :: t) 0 = crAux c 1 t 1 from by simp [crAux, hy]] at h
        rw [hrest] at h
        simp [startsRun] at h
        exact absurd h.1.symm hdc
    · rw [show crAux c 1 (y :: t) 0 = y :: crAux c 1 t 0 from by simp [crAux, hy]] at h
      cases j with
      | zero => simp [startsRun]
      | succ j =>
        simp [startsRun] at h ⊢
        exact ⟨h.1, ih h.2⟩

theorem crAux_one_preserve {d c : Char} {K : Nat} (hdc : d ≠ c) :
    ∀ (xs : List Char) (k : Nat),
      hasRun d K (crAux c 1 xs k) = true → hasRun d K xs = true := by
  cases K with
  | zero => intro xs _ _; exact hasRun_zero d xs
  | succ K =>
    intro xs
    induction xs with
    | nil =>
      intro k h
      rw [show crAux c 1 [] k = List.replicate (min k 1) c from by simp [crAux]] at h
      rw [hasRun_replicate_ne hdc (by omega)] at h
      exact absurd h Bool.false_ne_true
    | cons y t ih =>
      intro k h
      by_cases hy : y = c
      · rw [show crAux c 1 (y :: t) k = crAux c 1 t (k + 1) from by simp [crAux, hy]] at h
        exact hasRun_tail (ih (k + 1) h)
      · rw [show crAux c 1 (y :: t) k =
            List.replicate (min k 1) c ++ y :: crAux c 1 t 0 from by simp [crAux, hy]] at h
        have h2 := hasRun_strip_replicate hdc _ h
        simp [hasRun] at h2
        rcases h2 with h2 | h2
        · simp [startsRun] at h2
          obtain ⟨hyd, hsr⟩ := h2
          have hst := startsRun_crAux0 hdc t hsr
          exact hasRun_of_starts (by simp [startsRun, hyd, hst])
        · exact hasRun_tail (ih 0 h2)

/-! ### Strip lemmas -/

theorem dropWhile_length_le (p : Char → Bool) (l : List Char) :
    (l.dropWhile p).length ≤ l.length := by
  induction l with
  | nil => simp [List.dropWhile]
  | cons x xs ih =>
    by_cases hx : p x
    · simp [List.dropWhile, hx]; omega
    · simp [List.dropWhile, hx]

theorem hasRun_dropWhile {d : Char} {K : Nat} {p : Char → Bool} :
    ∀ {l : List Char}, hasRun d K (l.dropWhile p) = true → hasRun d K l = true := by
  intro l
  induction l with
  | nil => simp [List.dropWhile]
  | cons x t ih =>
    intro h
    by_cases hx : p x
    · rw [List.dropWhile_cons_of_pos hx] at h
      exact hasRun_tail (ih h)
    · rwa [List.dropWhile_cons_of_neg hx] at h

theorem dropTrail_append (p : Char → Bool) :
    ∀ l : List Char, ∃ t, dropTrailWhile p l ++ t = l := by
  intro l
  induction l with
  | nil => exact ⟨[], rfl⟩
  | cons x xs ih =>
    obtain ⟨t, ht⟩ := ih
    by_cases hc : dropTrailWhile p xs = [] ∧ p x = true
    · refine ⟨x :: xs, ?_⟩
      simp [dropTrailWhile, hc.1, hc.2]
    · refine ⟨t, ?_⟩
      have : dropTrailWhile p (x :: xs) = x :: dropTrailWhile p xs := by
        simp only [dropTrailWhile]
        rw [if_neg]
        simp only [Bool.and_eq_true, decide_eq_true_eq]
        exact fun hh => hc ⟨hh.1, hh.2⟩
      rw [this]
      simp [ht]

theorem hasRun_dropTrail {d : Char} {K : Nat} {p : Char → Bool} {l : List Char}
    (h : hasRun d K (dropTrailWhile p l) = true) : hasRun d K l = true := by
  obtain ⟨t, ht⟩ := dropTrail_append p l
  rw [← ht]
  exact hasRun_append_right h t

theorem hasRun_pyStrip {d : Char} {K : Nat} {l : List Char}
    (h : hasRun d K (pyStrip l) = true) : hasRun d K l = true :=
  hasRun_dropWhile (hasRun_dropTrail h)

theorem dropWhile_self_idem (p : Char → Bool) (l : List Char) :
    (l.dropWhile p).dropWhile p = l.dropWhile p := by
  induction l with
  | nil => simp
  | cons x xs ih =>
    by_cases hx : p x
    · rw [List.dropWhile_cons_of_pos hx]; exact ih
    · rw [List.dropWhile_cons_of_neg hx, List.dropWhile_cons_of_neg hx]

theorem dropTrail_idem (p : Char → Bool) (l : List Char) :
    dropTrailWhile p (dropTrailWhile p l) = dropTrailWhile p l := by
  induction l with
  | nil => simp [dropTrailWhile]
  | cons x xs ih =>
    by_cases hc : dropTrailWhile p xs = [] ∧ p x = true
    · simp [dropTrailWhile, hc.1, hc.2]
    · have hstep : dropTrailWhile p (x :: xs) = x :: dropTrailWhile p xs := by
        simp only [dropTrailWhile]
        rw [if_neg]
        simp only [Bool.and_eq_true, decide_eq_true_eq]
        exact fun hh => hc ⟨hh.1, hh.2⟩
      rw [hstep]
      simp only [dropTrailWhile, ih]
      rw [if_neg]
      simp only [Bool.and_eq_true, decide_eq_true_eq]
      exact fun hh => hc ⟨hh.1, hh.2⟩

theorem dropWhile_dropTrail (p : Char → Bool) {u : List Char}
    (h : u.dropWhile p = u) :
    (dropTrailWhile p u).dropWhile p = dropTrailWhile p u := by
  cases u with
  | nil => simp [dropTrailWhile]
  | cons y ys =>
    have hy : p y = false := by
      by_cases hp : p y
      · rw [List.dropWhile_cons_of_pos hp] at h
        have := congrArg List.length h
        have hle := dropWhile_length_le p ys
        simp at this
        omega
      · simpa using hp
    by_cases hc : dropTrailWhile p ys = [] ∧ p y = true
    · rw [hy] at hc; simp at hc
    · have hstep : dropTrailWhile p (y :: ys) = y :: dropTrailWhile p ys := by
        simp only [dropTrailWhile]
        rw [if_neg]
        simp only [Bool.and_eq_true, decide_eq_true_eq]
        exact fun hh => hc ⟨hh.1, hh.2⟩
      rw [hstep, List.dropWhile_cons_of_neg (by simp [hy])]

theorem pyStrip_idem (l : List Char) : pyStrip (pyStrip l) = pyStrip l := by
  unfold pyStrip
  rw [dropWhile_dropTrail isPyWs (dropWhile_self_idem isPyWs l)]
  exact dropTrail_idem isPyWs _

/-! ### Properties of the post-processing pipeline -/

theorem collapseRun_no_run (c : Char) (m : Nat) (l : List Char) :
    hasRun c (m + 1) (collapseRun c m l) = false :=
  crAux_no_run c m l 0

theorem collapseRun_id {c : Char} {m : Nat} {l : List Char}
    (h : hasRun c (m + 1) l = false) : collapseRun c m l = l := by
  unfold collapseRun
  simpa using crAux_id l 0 (by simpa using h)

/-- The cleaned text contains no run of two or more spaces
(`re.sub(r' +', ' ', text)` leaves no double space, and stripping cannot
create one). -/
theorem extractCleanL_no_double_space (l : List Char) :
    hasRun ' ' 2 (extractCleanL l) = false := by
  rcases Bool.eq_false_or_eq_true (hasRun ' ' 2 (extractCleanL l)) with ht | hf
  · have h1 := hasRun_pyStrip ht
    rw [show (2 : Nat) = 1 + 1 from rfl] at h1
    rw [collapseRun_no_run ' ' 1 _] at h1
    exact absurd h1 Bool.false_ne_true
  · exact hf

/-- The cleaned text contains no run of three or more newlines:
the blank-line collapse leaves none, the space collapse never removes a
whole maximal space run (it keeps one space), so it cannot bring newlines
together, and stripping cannot create one. -/
theorem extractCleanL_no_triple_newline (l : List Char) :
    hasRun '\n' 3 (extractCleanL l) = false := by
  rcases Bool.eq_false_or_eq_true (hasRun '\n' 3 (extractCleanL l)) with ht | hf
  · have h1 := hasRun_pyStrip ht
    have h2 := crAux_one_preserve (show '\n' ≠ ' ' from by decide) _ 0 h1
    rw [show (3 : Nat) = 2 + 1 from rfl] at h2
    rw [collapseRun_no_run '\n' 2 _] at h2
    exact absurd h2 Bool.false_ne_true
  · exact hf

/-- The cleaned text carries no leading or trailing whitespace:
stripping it again changes nothing. -/
theorem extractCleanL_stripped (l : List Char) :
    pyStrip (extractCleanL l) = extractCleanL l := by
  unfold extractCleanL
  exact pyStrip_idem _

/-! ### The backward heading scan -/

theorem scanDesc_finds {pred : Nat → Bool} {t : Nat} :
    ∀ {steps i : Nat}, t ≤ i → i - t < steps → pred t = true →
      (∀ j, t < j → j ≤ i → pred j = false) →
      scanDesc pred i steps = some t := by
  intro steps
  induction steps with
  | zero => intro i _ h2 _ _; omega
  | succ steps ih =>
    intro i h1 h2 hp habove
    by_cases hit : i = t
    · subst hit
      simp [scanDesc, hp]
    · have hlt : t < i := by omega
      have hfi : pred i = false := habove i hlt (by omega)
      simp [scanDesc, hfi]
      exact ih (by omega) (by omega) hp (fun j hj1 hj2 => habove j hj1 (by omega))

theorem findBibIndex_eq {ps : List (String × String)} {i : Nat}
    (hi : i < ps.length) (hmid : ps.length / 2 < i)
    (hp : bibPred ps i = true)
    (habove : ∀ j, i < j → bibPred ps j = false) :
    findBibIndex ps = some i := by
  have hfind : scanDesc (bibPred ps) (ps.length - 1) ((ps.length - 1) - ps.length / 2) =
      some i := by
    apply scanDesc_finds (by omega) (by omega) hp
    intro j hj _
    exact habove j hj
  unfold findBibIndex
  simp [hfind]

/-- C3, counterexample.  In `docC3`, a past-midpoint "Bibliography"
paragraph (index 6 of 11) is followed by a later "References" paragraph
(index 8): the backward scan stops at "References", so the
"Bibliography" paragraph and the paragraph after it land in the
main-text stream, not outside / in the bibliography stream as the claim
requires. -/
theorem c3_counterexample :
    (parseDocx docC3 =
      ("a0\n\na1\n\na2\n\na3\n\na4\n\na5\n\nBibliography\n\na7", "a9\n\na10")) ∧
    (parseDocx docC3).2 ≠ "a7\n\nReferences\n\na9\n\na10" ∧
    (parseDocx docC3).1 ≠ "a0\n\na1\n\na2\n\na3\n\na4\n\na5" := by
  decide

/-- C3, amended.  For every .docx document with a paragraph whose
trimmed text is exactly "Bibliography" past the midpoint, *provided no
recognized heading occurs at a later index*, the splitter drops that
paragraph from both streams, puts every earlier paragraph in the
main-text stream and every later paragraph in the bibliography stream. -/
theorem c3_docx_bibliography_split (doc : List DocxPara) (i : Nat)
    (hi : i < doc.length)
    (hmid : doc.length / 2 < i)
    (hhead : pyStripStr (paraRawText (doc.getD i [])) = "Bibliography")
    (hafter : ∀ j, i < j → j < doc.length →
      isBibHeading (pyStripStr (paraRawText (doc.getD j []))) = false) :
    parseDocx doc =
      (cleanItalicTags (joinBlank ((doc.take i).map paraFormatted)),
       cleanItalicTags (joinBlank ((doc.drop (i + 1)).map paraFormatted))) := by
  have hlen : (allParagraphs doc).length = doc.length := by
    simp [allParagraphs]
  have hget : ∀ j, j < doc.length →
      (allParagraphs doc)[j]? =
        some (pyStripStr (paraRawText (doc.getD j [])), paraFormatted (doc.getD j [])) := by
    intro j hj
    have hv : doc[j]? = some doc[j] := List.getElem?_eq_getElem hj
    have hvd : doc.getD j [] = doc[j] := by
      simp [List.getD, List.get?_eq_getElem?, hv]
    simp [allParagraphs, List.getElem?_map, hv, hvd]
  have hp : bibPred (allParagraphs doc) i = true := by
    simp only [bibPred, List.get?_eq_getElem?, hget i hi, hhead]
    decide
  have habove : ∀ j, i < j → bibPred (allParagraphs doc) j = false := by
    intro j hj
    by_cases hjl : j < doc.length
    · simp only [bibPred, List.get?_eq_getElem?, hget j hjl]
      exact hafter j hj hjl
    · have hnone : (allParagraphs doc)[j]? = none := by
        rw [List.getElem?_eq_none_iff]
        omega
      simp only [bibPred, List.get?_eq_getElem?, hnone]
  have hfind := findBibIndex_eq (by omega) (by rw [hlen]; exact hmid) hp habove
  have h1 : ((allParagraphs doc).take i).map (·.2) = (doc.take i).map paraFormatted := by
    rw [allParagraphs, ← List.map_take, List.map_map]
    rfl
  have h2 : ((allParagraphs doc).drop (i + 1)).map (·.2) =
      (doc.drop (i + 1)).map paraFormatted := by
    rw [allParagraphs, ← List.map_drop, List.map_map]
    rfl
  simp only [parseDocx, hfind, h1, h2]

/-- C3, witness.  A concrete five-paragraph document with the heading
at index 3: the theorem applies and gives the concrete split. -/
theorem c3_witness :
    parseDocx [[⟨"A", false⟩], [⟨"B", false⟩], [⟨"C", false⟩],
               [⟨"Bibliography", false⟩], [⟨"D", false⟩]] =
      ("A\n\nB\n\nC", "D") := by
  have h := c3_docx_bibliography_split
    [[⟨"A", false⟩], [⟨"B", false⟩], [⟨"C", false⟩],
     [⟨"Bibliography", false⟩], [⟨"D", false⟩]] 3
    (by decide) (by decide) (by decide)
    (by
      intro j h1 h2
      simp only [List.length_cons, List.length_nil] at h2
      have : j = 4 := by omega
      subst this
      decide)
  rw [h]
  decide

/-! ### C2: the HTML split -/

/-- C2, counterexample.  A three-block document with the heading in
an `h2` element: the code splits the serialized markup at the *start* of
the heading's serialization, so the heading text "Bibliography" stays at
the head of the bibliography stream instead of being dropped; the claim
requires the bibliography stream to be just "Smith 2020". -/
theorem c2_counterexample :
    parseHtmlBlocks [⟨"p", "Intro text"⟩, ⟨"h2", "Bibliography"⟩, ⟨"p", "Smith 2020"⟩] =
      ("Intro text", "Bibliography\nSmith 2020") ∧
    (parseHtmlBlocks [⟨"p", "Intro text"⟩, ⟨"h2", "Bibliography"⟩,
      ⟨"p", "Smith 2020"⟩]).2 ≠ "Smith 2020" := by decide

/-! ### C2, amended: lemmas locating the regex split point -/

theorem mhp_head_ne {c : Char} (hc : c ≠ '<') (l : List Char) :
    matchesHPat (c :: l) = false := by
  simp [matchesHPat, eatChar, hc]

theorem fmAux_step {test : List Char → Bool} {x : Char} {l : List Char} {pos : Nat}
    (h : test (x :: l) = false) : fmAux test (x :: l) pos = fmAux test l (pos + 1) := by
  simp [fmAux, h]

theorem fmAux_found {test : List Char → Bool} {x : Char} {l : List Char} {pos : Nat}
    (h : test (x :: l) = true) : fmAux test (x :: l) pos = some pos := by
  simp [fmAux, h]

/-- Skip a run of characters none of which is `<`: all three patterns
begin with a literal `<`, so no match can start there. -/
theorem fmAux_skip_ne_lt {test : List Char → Bool}
    (htest : ∀ (c : Char) (l : List Char), c ≠ '<' → test (c :: l) = false) :
    ∀ (td : List Char), (∀ c ∈ td, c ≠ '<') →
      ∀ (Z : List Char) (pos : Nat),
        fmAux test (td ++ Z) pos = fmAux test Z (pos + td.length) := by
  intro td
  induction td with
  | nil => intro _ Z pos; simp
  | cons c td ih =>
    intro h Z pos
    have hc : c ≠ '<' := h c (by simp)
    rw [List.cons_append, fmAux_step (htest c (td ++ Z) hc),
      ih (fun x hx => h x (by simp [hx])) Z (pos + 1)]
    congr 1
    simp only [List.length_cons]
    omega

/-- Skipping the lxml wrapper `"<html><body>"`: no pattern matches at any
offset inside it. -/
theorem fmAux_wrapper (X : List Char) (pos : Nat) :
    fmAux matchesHPat ("<html><body>".data ++ X) pos = fmAux matchesHPat X (pos + 12) := by
  show fmAux matchesHPat
    ('<' :: 'h' :: 't' :: 'm' :: 'l' :: '>' :: '<' :: 'b' :: 'o' :: 'd' :: 'y' :: '>' :: X)
    pos = fmAux matchesHPat X (pos + 12)
  rw [fmAux_step (show matchesHPat ('<' :: 'h' :: 't' :: _) = false from rfl),
    fmAux_step (mhp_head_ne (by decide) _),
    fmAux_step (mhp_head_ne (by decide) _),
    fmAux_step (mhp_head_ne (by decide) _),
    fmAux_step (mhp_head_ne (by decide) _),
    fmAux_step (mhp_head_ne (by decide) _),
    fmAux_step (show matchesHPat ('<' :: 'b' :: _) = false from rfl),
    fmAux_step (mhp_head_ne (by decide) _),
    fmAux_step (mhp_head_ne (by decide) _),
    fmAux_step (mhp_head_ne (by decide) _),
    fmAux_step (mhp_head_ne (by decide) _),
    fmAux_step (mhp_head_ne (by decide) _)]

/-- Skipping one plain `p`/`div` block: the pattern requires `<h`, the
text holds no `<`, and the closing tag starts `</`. -/
theorem fmAux_pdiv_block {b : HtmlBlock} (hb : pdivBlock b = true)
    (Z : List Char) (pos : Nat) :
    fmAux matchesHPat (serializeBlock b ++ Z) pos =
      fmAux matchesHPat Z (pos + (serializeBlock b).length) := by
  simp only [pdivBlock, Bool.and_eq_true, Bool.or_eq_true, decide_eq_true_eq,
    List.all_eq_true] at hb
  obtain ⟨htag, htext⟩ := hb
  have htlt : ∀ c ∈ b.text.data, c ≠ '<' := by
    intro c hc
    have := htext c hc
    simp at this
    exact this.1.1
  rcases htag with htag | htag
  · have e : serializeBlock b ++ Z =
        '<' :: 'p' :: '>' :: (b.text.data ++ ('<' :: '/' :: 'p' :: '>' :: Z)) := by
      simp [serializeBlock, htag]
    have elen : (serializeBlock b).length = b.text.data.length + 7 := by
      simp [serializeBlock, htag]
    rw [e, fmAux_step (show matchesHPat ('<' :: 'p' :: _) = false from rfl),
      fmAux_step (mhp_head_ne (by decide) _),
      fmAux_step (mhp_head_ne (by decide) _),
      fmAux_skip_ne_lt (fun c l hc => mhp_head_ne hc l) b.text.data htlt _ _,
      fmAux_step (show matchesHPat ('<' :: '/' :: _) = false from rfl),
      fmAux_step (mhp_head_ne (by decide) _),
      fmAux_step (mhp_head_ne (by decide) _),
      fmAux_step (mhp_head_ne (by decide) _),
      elen]
    congr 1
    omega
  · have e : serializeBlock b ++ Z =
        '<' :: 'd' :: 'i' :: 'v' :: '>' ::
          (b.text.data ++ ('<' :: '/' :: 'd' :: 'i' :: 'v' :: '>' :: Z)) := by
      simp [serializeBlock, htag]
    have elen : (serializeBlock b).length = b.text.data.length + 11 := by
      simp [serializeBlock, htag]
    rw [e, fmAux_step (show matchesHPat ('<' :: 'd' :: _) = false from rfl),
      fmAux_step (mhp_head_ne (by decide) _),
      fmAux_step (mhp_head_ne (by decide) _),
      fmAux_step (mhp_head_ne (by decide) _),
      fmAux_step (mhp_head_ne (by decide) _),
      fmAux_skip_ne_lt (fun c l hc => mhp_head_ne hc l) b.text.data htlt _ _,
      fmAux_step (show matchesHPat ('<' :: '/' :: _) = false from rfl),
      fmAux_step (mhp_head_ne (by decide) _),
      fmAux_step (mhp_head_ne (by decide) _),
      fmAux_step (mhp_head_ne (by decide) _),
      fmAux_step (mhp_head_ne (by decide) _),
      fmAux_step (mhp_head_ne (by decide) _),
      elen]
    congr 1
    omega

/-- Skipping a run of plain `p`/`div` blocks. -/
theorem fmAux_pdiv_list {pre : List HtmlBlock} (h : ∀ b ∈ pre, pdivBlock b = true)
    (Z : List Char) (pos : Nat) :
    fmAux matchesHPat ((pre.map serializeBlock).flatten ++ Z) pos =
      fmAux matchesHPat Z (pos + ((pre.map serializeBlock).flatten).length) := by
  induction pre generalizing pos with
  | nil => simp
  | cons b pre ih =>
    have hb := h b (by simp)
    rw [List.map_cons, List.flatten_cons, List.append_assoc,
      fmAux_pdiv_block hb _ pos, ih (fun x hx => h x (by simp [hx])) _]
    congr 1
    simp
    omega

theorem dropWhile_all_append {p : Char → Bool} {A : List Char}
    (h : ∀ c ∈ A, p c = true) (B : List Char) :
    List.dropWhile p (A ++ B) = List.dropWhile p B := by
  induction A with
  | nil => simp
  | cons c A ih =>
    rw [List.cons_append, List.dropWhile_cons_of_pos (h c (by simp))]
    exact ih (fun x hx => h x (by simp [hx]))

/-- The pattern `<h\d...>` matches at the start of a serialized heading
block whose text is whitespace, then literally `Bibliography`, then
whitespace. -/
theorem mhp_heading {d : Char} (hd : d.isDigit = true) {lead trail : List Char}
    (hlead : ∀ c ∈ lead, isPyWs c = true) (htrail : ∀ c ∈ trail, isPyWs c = true)
    (Z : List Char) :
    matchesHPat ('<' :: 'h' :: d :: '>' ::
      ((lead ++ "Bibliography".data ++ trail) ++ ('<' :: '/' :: 'h' :: d :: '>' :: Z))) =
      true := by
  have f2 : ∀ R, List.dropWhile isPyWs (lead ++ 'B' :: R) = 'B' :: R := fun R => by
    rw [dropWhile_all_append hlead]
    exact List.dropWhile_cons_of_neg (by decide)
  have f4 : ∀ R, List.dropWhile isPyWs (trail ++ '<' :: R) = '<' :: R := fun R => by
    rw [dropWhile_all_append htrail]
    exact List.dropWhile_cons_of_neg (by decide)
  simp [matchesHPat, eatChar, eatUptoGt, eatLitIns, hd, f2, f4]

/-- The heading search returns a header whenever some block matching one
of the searched tags has a recognized heading text. -/
theorem findBibHeader_isSome {bs : List HtmlBlock} {t0 : String} {b0 : HtmlBlock} :
    ∀ {ts : List String}, t0 ∈ ts → b0 ∈ bs → b0.tag = t0 →
      isBibHeading (pyStripStr b0.text) = true →
      (findBibHeader ts bs).isSome = true := by
  intro ts
  induction ts with
  | nil => intro h; simp at h
  | cons t ts ih =>
    intro ht hb htag hbib
    simp only [findBibHeader]
    rcases hfind : bs.find? (fun b => b.tag = t && isBibHeading (pyStripStr b.text)) with
      _ | b
    all_goals rw [hfind]
    · rcases List.mem_cons.mp ht with h0 | h0
      · exfalso
        have hnone : ∀ x ∈ bs, ¬(x.tag = t && isBibHeading (pyStripStr x.text)) = true :=
          fun x hx => List.find?_eq_none.mp hfind x hx
        have hcontra := hnone b0 hb
        rw [htag, h0] at hcontra
        simp [hbib] at hcontra
      · exact ih h0 hb htag hbib
    · simp

/-! ### C2, amended: lemmas on text extraction -/

theorem gtAux_wrapper (X : List Char) :
    gtAux ("<html><body>".data ++ X) false [] = gtAux X false [] := rfl

theorem gtAux_trailer : gtAux ("</body></html>".data) false [] = [] := rfl

theorem gtAux_tag {tch : List Char} (h : ∀ c ∈ tch, c ≠ '>') (X cur : List Char) :
    gtAux (tch ++ '>' :: X) true cur = gtAux X false cur := by
  induction tch with
  | nil => simp [gtAux]
  | cons c tch ih =>
    have hc : c ≠ '>' := h c (by simp)
    rw [List.cons_append]
    show gtAux (c :: (tch ++ '>' :: X)) true cur = _
    rw [show gtAux (c :: (tch ++ '>' :: X)) true cur =
        gtAux (tch ++ '>' :: X) true cur from by simp [gtAux, hc]]
    exact ih (fun x hx => h x (by simp [hx]))

theorem gtAux_text {td : List Char} (h : ∀ c ∈ td, c ≠ '<') :
    ∀ (X cur : List Char),
      gtAux (td ++ '<' :: X) false cur =
        if (cur.reverse ++ td).isEmpty then gtAux X true []
        else (cur.reverse ++ td) :: gtAux X true [] := by
  induction td with
  | nil =>
    intro X cur
    simp only [List.nil_append, List.append_nil]
    show (if cur.isEmpty then gtAux X true [] else cur.reverse :: gtAux X true []) = _
    rcases cur with _ | ⟨c, cur⟩
    · simp
    · simp [List.isEmpty_iff]
  | cons c td ih =>
    intro X cur
    have hc : c ≠ '<' := h c (by simp)
    rw [List.cons_append]
    rw [show gtAux (c :: (td ++ '<' :: X)) false cur =
        gtAux (td ++ '<' :: X) false (c :: cur) from by simp [gtAux, hc]]
    rw [ih (fun x hx => h x (by simp [hx])) X (c :: cur)]
    have e : (c :: cur).reverse ++ td = cur.reverse ++ c :: td := by simp
    rw [e]

/-- Extracting through one serialized block: its (nonempty) text becomes
one text node. -/
theorem gtAux_block {b : HtmlBlock} (htag : ∀ c ∈ b.tag.data, c ≠ '>')
    (htext : ∀ c ∈ b.text.data, c ≠ '<') (X : List Char) :
    gtAux (serializeBlock b ++ X) false [] =
      if b.text.data.isEmpty then gtAux X false []
      else b.text.data :: gtAux X false [] := by
  have e : serializeBlock b ++ X =
      '<' :: (b.tag.data ++ '>' :: (b.text.data ++ '<' :: ('/' :: b.tag.data ++ '>' :: X))) := by
    simp [serializeBlock]
  rw [e]
  rw [show gtAux ('<' :: (b.tag.data ++ '>' :: (b.text.data ++ '<' ::
      ('/' :: b.tag.data ++ '>' :: X)))) false [] =
      gtAux (b.tag.data ++ '>' :: (b.text.data ++ '<' :: ('/' :: b.tag.data ++ '>' :: X)))
        true [] from by simp [gtAux]]
  rw [gtAux_tag htag, gtAux_text htext]
  rw [@gtAux_tag ('/' :: b.tag.data)
    (fun x hx => by
      rcases List.mem_cons.mp hx with h0 | h0
      · subst h0; decide
      · exact htag x h0) X []]
  simp

/-- Extracting through a run of serialized blocks. -/
theorem gtAux_blocks {bs : List HtmlBlock}
    (h : ∀ b ∈ bs, (∀ c ∈ b.tag.data, c ≠ '>') ∧ (∀ c ∈ b.text.data, c ≠ '<'))
    (X : List Char) :
    gtAux ((bs.map serializeBlock).flatten ++ X) false [] =
      blocksTextSegs bs ++ gtAux X false [] := by
  induction bs with
  | nil => simp [blocksTextSegs]
  | cons b bs ih =>
    obtain ⟨htag, htext⟩ := h b (by simp)
    rw [List.map_cons, List.flatten_cons, List.append_assoc, gtAux_block htag htext,
      ih (fun x hx => h x (by simp [hx]))]
    rcases he : b.text.data with _ | ⟨c, cs⟩
    · simp [blocksTextSegs, he]
    · simp [blocksTextSegs, he]

theorem isPyWs_ne_lt {c : Char} (h : isPyWs c = true) : c ≠ '<' := by
  intro he
  subst he
  exact absurd h (by decide)

theorem isPyWs_ne_gt {c : Char} (h : isPyWs c = true) : c ≠ '>' := by
  intro he
  subst he
  exact absurd h (by decide)

/-- Decomposition of `dropTrailWhile`: the dropped tail satisfies `p`. -/
theorem dropTrail_append_all (p : Char → Bool) :
    ∀ l : List Char, ∃ t, dropTrailWhile p l ++ t = l ∧ ∀ c ∈ t, p c = true := by
  intro l
  induction l with
  | nil => exact ⟨[], rfl, by simp⟩
  | cons x xs ih =>
    obtain ⟨t, ht, hall⟩ := ih
    by_cases hc : dropTrailWhile p xs = [] ∧ p x = true
    · refine ⟨x :: xs, ?_, ?_⟩
      · simp [dropTrailWhile, hc.1, hc.2]
      · intro c hcm
        rcases List.mem_cons.mp hcm with h0 | h0
        · subst h0; exact hc.2
        · have : xs = t := by rw [← ht, hc.1]; simp
          exact hall c (this ▸ h0)
    · have hstep : dropTrailWhile p (x :: xs) = x :: dropTrailWhile p xs := by
        simp only [dropTrailWhile]
        rw [if_neg]
        simp only [Bool.and_eq_true, decide_eq_true_eq]
        exact fun hh => hc ⟨hh.1, hh.2⟩
      exact ⟨t, by rw [hstep, List.cons_append, ht], hall⟩

/-- C2, amended.  The markup splitter works forward, not backward:
for a document of plain paragraph/div blocks with one `h1`-`h6` heading
block whose trimmed text is exactly "Bibliography", the serialized
document is split at the start of the heading element's first regex
match, so every block before the heading forms the main stream while the
heading itself *and* every block after it form the bibliography stream
(the heading is not dropped).  Headings "references"/"works cited" are
found by the element search but match no split pattern, and a `p`/`div`
"Bibliography" heading matches none of the patterns either (the `<b>` /
`<strong>` variants require inline markup), so they produce no split. -/
theorem c2_html_forward_split (pre post : List HtmlBlock) (hb : HtmlBlock) (d : Char)
    (hd : d ∈ (['1', '2', '3', '4', '5', '6'] : List Char))
    (htag : hb.tag = ⟨['h', d]⟩)
    (htext : pyStripStr hb.text = "Bibliography")
    (hpre : pre.all pdivBlock = true)
    (hpost : post.all pdivBlock = true) :
    parseHtmlBlocks (pre ++ hb :: post) =
      (extractClean (blocksText pre), extractClean (blocksText (hb :: post))) := by
  have hpre' : ∀ b ∈ pre, pdivBlock b = true := List.all_eq_true.mp hpre
  have hpost' : ∀ b ∈ post, pdivBlock b = true := List.all_eq_true.mp hpost
  have caseD : d = '1' ∨ d = '2' ∨ d = '3' ∨ d = '4' ∨ d = '5' ∨ d = '6' := by
    simpa using hd
  have hdd : d.isDigit = true := by
    rcases caseD with rfl | rfl | rfl | rfl | rfl | rfl <;> decide
  have hdgt : d ≠ '>' := by
    rcases caseD with rfl | rfl | rfl | rfl | rfl | rfl <;> decide
  have htagmem : hb.tag ∈ searchTags := by
    rw [htag]
    rcases caseD with rfl | rfl | rfl | rfl | rfl | rfl <;> decide
  -- text decomposition of the heading block
  have hsplit1 : hb.text.data.takeWhile isPyWs ++ hb.text.data.dropWhile isPyWs =
      hb.text.data := List.takeWhile_append_dropWhile isPyWs hb.text.data
  obtain ⟨trail, htrailEq, htrailAll⟩ :=
    dropTrail_append_all isPyWs (hb.text.data.dropWhile isPyWs)
  have hstrip : dropTrailWhile isPyWs (hb.text.data.dropWhile isPyWs) =
      "Bibliography".data := congrArg String.data htext
  have hleadAll : ∀ c ∈ hb.text.data.takeWhile isPyWs, isPyWs c = true :=
    fun c hc => List.mem_takeWhile_imp hc
  have hdecomp : hb.text.data =
      hb.text.data.takeWhile isPyWs ++ "Bibliography".data ++ trail := by
    conv_lhs => rw [← hsplit1, ← htrailEq, hstrip]
    simp [List.append_assoc]
  -- member blocks survive the tag filter
  have hBfreeBool : ("Bibliography".data.all fun c => c ≠ '<') = true := by decide
  have hBfree : ∀ c ∈ "Bibliography".data, c ≠ '<' := by
    intro c hc
    exact of_decide_eq_true (List.all_eq_true.mp hBfreeBool c hc)
  have htextfree : ∀ c ∈ hb.text.data, c ≠ '<' := by
    intro c hc
    rw [hdecomp] at hc
    rcases List.mem_append.mp hc with hc2 | hc2
    · rcases List.mem_append.mp hc2 with hc3 | hc3
      · exact isPyWs_ne_lt (hleadAll c hc3)
      · exact hBfree c hc3
    · exact isPyWs_ne_lt (htrailAll c hc2)
  have htagfree : ∀ c ∈ hb.tag.data, c ≠ '>' := by
    rw [htag]
    intro c hc
    rcases List.mem_cons.mp hc with rfl | hc2
    · decide
    · rcases List.mem_singleton.mp hc2 with rfl
      exact hdgt
  have hgoodpre : ∀ b ∈ pre,
      (∀ c ∈ b.tag.data, c ≠ '>') ∧ (∀ c ∈ b.text.data, c ≠ '<') := by
    intro b hbm
    have hp := hpre' b hbm
    simp only [pdivBlock, Bool.and_eq_true, Bool.or_eq_true, decide_eq_true_eq,
      List.all_eq_true] at hp
    refine ⟨?_, ?_⟩
    · intro c hc
      rcases hp.1 with h | h <;> rw [h] at hc <;> simp at hc
      · subst hc; decide
      · rcases hc with rfl | rfl | rfl <;> decide
    · intro c hc
      have := hp.2 c hc
      simp at this
      exact this.1.1
  have hgoodpost : ∀ b ∈ post,
      (∀ c ∈ b.tag.data, c ≠ '>') ∧ (∀ c ∈ b.text.data, c ≠ '<') := by
    intro b hbm
    have hp := hpost' b hbm
    simp only [pdivBlock, Bool.and_eq_true, Bool.or_eq_true, decide_eq_true_eq,
      List.all_eq_true] at hp
    refine ⟨?_, ?_⟩
    · intro c hc
      rcases hp.1 with h | h <;> rw [h] at hc <;> simp at hc
      · subst hc; decide
      · rcases hc with rfl | rfl | rfl <;> decide
    · intro c hc
      have := hp.2 c hc
      simp at this
      exact this.1.1
  have hfilter : (pre ++ hb :: post).filter (fun b => !(strippedTags.contains b.tag)) =
      pre ++ hb :: post := by
    rw [List.filter_eq_self]
    intro b hbm
    rcases List.mem_append.mp hbm with hm | hm
    · have hp := hpre' b hm
      simp only [pdivBlock, Bool.and_eq_true, Bool.or_eq_true, decide_eq_true_eq,
        List.all_eq_true] at hp
      rcases hp.1 with h | h <;> rw [h] <;> decide
    · rcases List.mem_cons.mp hm with rfl | hm2
      · rw [htag]
        rcases caseD with rfl | rfl | rfl | rfl | rfl | rfl <;> decide
      · have hp := hpost' b hm2
        simp only [pdivBlock, Bool.and_eq_true, Bool.or_eq_true, decide_eq_true_eq,
          List.all_eq_true] at hp
        rcases hp.1 with h | h <;> rw [h] <;> decide
  -- the heading search succeeds
  have hbib : isBibHeading (pyStripStr hb.text) = true := by rw [htext]; decide
  have hhead : (findBibHeader searchTags (pre ++ hb :: post)).isSome = true :=
    findBibHeader_isSome htagmem (by simp) rfl hbib
  obtain ⟨hdr, hhdr⟩ := Option.isSome_iff_exists.mp hhead
  -- locate the regex match
  have hserdoc : serializeDoc (pre ++ hb :: post) =
      "<html><body>".data ++ ((pre.map serializeBlock).flatten ++
        (serializeBlock hb ++ ((post.map serializeBlock).flatten ++ "</body></html>".data))) := by
    simp [serializeDoc]
  have hserhb : ∀ Z, serializeBlock hb ++ Z =
      '<' :: 'h' :: d :: '>' ::
        ((hb.text.data.takeWhile isPyWs ++ "Bibliography".data ++ trail) ++
          ('<' :: '/' :: 'h' :: d :: '>' :: Z)) := by
    intro Z
    conv_lhs => rw [serializeBlock, htag, hdecomp]
    simp
  have hfm : firstMatchPos matchesHPat (serializeDoc (pre ++ hb :: post)) =
      some (12 + ((pre.map serializeBlock).flatten).length) := by
    unfold firstMatchPos
    rw [hserdoc, fmAux_wrapper, fmAux_pdiv_list hpre', hserhb,
      fmAux_found (mhp_heading hdd hleadAll htrailAll _)]
  have hpos : bibSplitPos (serializeDoc (pre ++ hb :: post)) =
      some (12 + ((pre.map serializeBlock).flatten).length) := by
    unfold bibSplitPos
    rw [hfm]
  -- take/drop at the match position
  have hlen12 : ("<html><body>".data ++ (pre.map serializeBlock).flatten).length =
      12 + ((pre.map serializeBlock).flatten).length := by
    simp
    omega
  have hassoc : serializeDoc (pre ++ hb :: post) =
      ("<html><body>".data ++ (pre.map serializeBlock).flatten) ++
        (serializeBlock hb ++ ((post.map serializeBlock).flatten ++ "</body></html>".data)) := by
    rw [hserdoc]
    simp [List.append_assoc]
  have htake : (serializeDoc (pre ++ hb :: post)).take
      (12 + ((pre.map serializeBlock).flatten).length) =
      "<html><body>".data ++ (pre.map serializeBlock).flatten := by
    rw [hassoc]
    exact List.take_left' hlen12
  have hdrop : (serializeDoc (pre ++ hb :: post)).drop
      (12 + ((pre.map serializeBlock).flatten).length) =
      serializeBlock hb ++ ((post.map serializeBlock).flatten ++ "</body></html>".data) := by
    rw [hassoc]
    exact List.drop_left' hlen12
  -- text extraction on both sides
  have hmaintext : getTextFromHtml
      ("<html><body>".data ++ (pre.map serializeBlock).flatten) = blocksText pre := by
    unfold getTextFromHtml
    rw [gtAux_wrapper]
    conv_lhs => rw [← List.append_nil ((pre.map serializeBlock).flatten)]
    rw [gtAux_blocks hgoodpre []]
    simp [gtAux, blocksText]
  have htdne : hb.text.data.isEmpty = false := by
    rw [hdecomp]
    simp
  have hbibtext : getTextFromHtml
      (serializeBlock hb ++ ((post.map serializeBlock).flatten ++ "</body></html>".data)) =
      blocksText (hb :: post) := by
    unfold getTextFromHtml
    rw [gtAux_block htagfree htextfree, htdne]
    simp only [Bool.false_eq_true, if_false]
    rw [gtAux_blocks hgoodpost, gtAux_trailer]
    have : blocksTextSegs (hb :: post) = hb.text.data :: blocksTextSegs post := by
      simp only [blocksTextSegs, List.map_cons, List.filter_cons]
      rw [if_pos]
      simp only [ne_eq, decide_eq_true_eq]
      intro hcon
      rw [hcon] at htdne
      simp at htdne
    simp [blocksText, this]
  -- assemble
  have hfrag : htmlSplitFrag (pre ++ hb :: post) =
      ((serializeDoc (pre ++ hb :: post)).take
        (12 + ((pre.map serializeBlock).flatten).length),
       (serializeDoc (pre ++ hb :: post)).drop
        (12 + ((pre.map serializeBlock).flatten).length)) := by
    simp only [htmlSplitFrag, hhdr, hpos]
    rw [if_pos]
    omega
  have hmain : parseHtmlBlocks (pre ++ hb :: post) =
      (extractFragment (htmlSplitFrag (pre ++ hb :: post)).1,
       extractFragment (htmlSplitFrag (pre ++ hb :: post)).2) := by
    unfold parseHtmlBlocks
    rw [hfilter]
  rw [hmain, hfrag]
  simp only [extractFragment]
  rw [htake, hdrop, hmaintext, hbibtext]

/-- C2, witness for the amended theorem.  The counterexample document
instantiates it: one intro paragraph, an `h2` heading, one entry. -/
theorem c2_witness :
    parseHtmlBlocks [⟨"p", "Intro text"⟩, ⟨"h2", "Bibliography"⟩, ⟨"p", "Smith 2020"⟩] =
      (extractClean (blocksText [⟨"p", "Intro text"⟩]),
       extractClean (blocksText [⟨"h2", "Bibliography"⟩, ⟨"p", "Smith 2020"⟩])) :=
  c2_html_forward_split [⟨"p", "Intro text"⟩] [⟨"p", "Smith 2020"⟩]
    ⟨"h2", "Bibliography"⟩ '2' (by decide) (by decide) (by decide) (by decide) (by decide)

/-- C4, counterexample.  A .docx input whose single paragraph holds a
double space: `parse_docx` applies only `_clean_italic_tags` (lines
68-75), no space collapsing and no trimming, so the double space survives
in the returned main stream, contradicting the claim that both formats
collapse multi-space runs. -/
theorem c4_counterexample :
    parseDocx [[⟨"a  b", false⟩]] = ("a  b", "") ∧
    hasRun ' ' 2 ("a  b".data) = true := by decide

/-- C4, amended.  The full post-processing (blank-line collapsing to
at most one blank line, space-run collapsing, trimming) holds for the
markup (HTML) parser only: both streams it returns contain no run of two
spaces, no run of three newlines, and no leading or trailing whitespace.
(The .docx parser applies only the italic-tag passes, as the
counterexample shows.) -/
theorem c4_markup_streams_cleaned (bs : List HtmlBlock) :
    (hasRun ' ' 2 (parseHtmlBlocks bs).1.data = false ∧
     hasRun '\n' 3 (parseHtmlBlocks bs).1.data = false ∧
     pyStripStr (parseHtmlBlocks bs).1 = (parseHtmlBlocks bs).1) ∧
    (hasRun ' ' 2 (parseHtmlBlocks bs).2.data = false ∧
     hasRun '\n' 3 (parseHtmlBlocks bs).2.data = false ∧
     pyStripStr (parseHtmlBlocks bs).2 = (parseHtmlBlocks bs).2) := by
  have key : ∀ l : List Char,
      hasRun ' ' 2 (extractFragment l).data = false ∧
      hasRun '\n' 3 (extractFragment l).data = false ∧
      pyStripStr (extractFragment l) = extractFragment l := by
    intro l
    refine ⟨extractCleanL_no_double_space _, extractCleanL_no_triple_newline _, ?_⟩
    exact congrArg (fun d => (⟨d⟩ : String)) (extractCleanL_stripped _)
  have huv : parseHtmlBlocks bs =
      (extractFragment (htmlSplitFrag (bs.filter fun b => !(strippedTags.contains b.tag))).1,
       extractFragment (htmlSplitFrag (bs.filter fun b => !(strippedTags.contains b.tag))).2) :=
    rfl
  rw [huv]
  exact ⟨key _, key _⟩

/-! ### C7: idempotence of the cleanup -/

/-- C7, counterexample.  Nested empty italic pairs defeat idempotence:
one cleanup pass of `<i><i></i></i>` removes only the inner pair (the
substitution resumes after each removal), leaving `<i></i>`, which a
second pass removes. -/
theorem c7_counterexample :
    extractClean "<i><i></i></i>" = "<i></i>" ∧
    extractClean (extractClean "<i><i></i></i>") ≠ extractClean "<i><i></i></i>" := by
  decide

/-- C7, amended.  The cleanup is idempotent on every text whose first
cleanup output is left unchanged by the italic-tag pass (which fails only
on nested italic-pair patterns such as the counterexample): the
whitespace stages are idempotent unconditionally. -/
theorem c7_cleanup_idem (s : String)
    (h : cleanItalicTags (extractClean s) = extractClean s) :
    extractClean (extractClean s) = extractClean s := by
  have hlist : cleanItalicL (extractCleanL s.data) = extractCleanL s.data :=
    congrArg String.data h
  show (⟨extractCleanL (extractCleanL s.data)⟩ : String) = ⟨extractCleanL s.data⟩
  have step : extractCleanL (extractCleanL s.data) = extractCleanL s.data := by
    have e1 : extractCleanL (extractCleanL s.data) =
        pyStrip (collapseRun ' ' 1 (collapseRun '\n' 2 (cleanItalicL (extractCleanL s.data)))) :=
      rfl
    rw [e1, hlist, collapseRun_id (extractCleanL_no_triple_newline s.data),
      collapseRun_id (extractCleanL_no_double_space s.data)]
    exact extractCleanL_stripped s.data
  rw [step]

/-- C7, witness.  The amended theorem applied at `"ab"`. -/
theorem c7_witness :
    cleanItalicTags (extractClean "ab") = extractClean "ab" ∧
    extractClean (extractClean "ab") = extractClean "ab" :=
  ⟨by decide, c7_cleanup_idem "ab" (by decide)⟩

/-! ### C1: the truncated-reply repair -/

/-- C1, counterexample.  On the spec's own truncated reply, the
repair step of `_try_repair_json` yields no parsed value at all: the
claim that it "produces text that parses as valid structured data
without raising" is false. -/
theorem c1_counterexample : (tryRepairJson c1ReplyText.data).isSome = false := by
  decide

/-- C1, amended.  The repair closes the open string and then appends
the `]` *before* the `}}`, producing `..."location":"p3"]}}` — a bracket
closing an array while the inner object is still open — so the candidate
does not parse, `_try_repair_json` returns `None`, and `analyze_document`
degrades to the error-field result instead. -/
theorem c1_repair_yields_invalid :
    repairTail c1ReplyText.data = some (c1ReplyText.data ++ [qc, ']', cbr, cbr]) ∧
    (jsonLoads (c1ReplyText.data ++ [qc, ']', cbr, cbr])).isSome = false ∧
    (tryRepairJson c1ReplyText.data).isSome = false ∧
    errorFieldSet (analyzeReply c1ReplyText.data) = true := by
  refine ⟨by decide, by decide, by decide, by decide⟩

/-! ### C5: exceptions escaping `analyze_document` -/

/-- C5.  The normalizer can raise: for the reply
`x {"a": "}", "citations_found": 3}` the depth-tracked extraction is
fooled by the `}` inside a string and fails, the direct parse raises,
and the repair's regex span parses to a dict whose `citations_found` is
the integer `3`; `AnalysisResult` is then constructed *inside* the
`except json.JSONDecodeError` handler, where `len(3)` raises a
`TypeError` that no handler of `analyze_document` catches. -/
theorem c5_typeerror_escapes :
    raisedTypeError (analyzeReply c5FailingReply.data) = true := by decide

/-! ### C8: legacy count arrays -/

/-- C8, counterexample.  A parsed reply object may contain a
`citations_found` array and no `counts.citations` scalar and still not
produce that total: when `counts` is present but not a dict,
`counts.get` raises `AttributeError` before the legacy override runs,
so no outcome with the array's length is produced. -/
theorem c8_counterexample :
    raisedAttributeError (mkAnalysisResult (.jobj
      [("counts".data, .jnum 3),
       ("citations_found".data, .jarr [.jnull, .jnull, .jnull])])) = true := by
  decide

/-- C8, amended.  Provided the `counts` field is absent or is itself
an object, a reply object with a `citations_found` array yields an
outcome whose total citation count is the length of that array — the
legacy array overrides any scalar count unconditionally. -/
theorem c8_legacy_array_overrides (kvs : List (List Char × Json)) (xs : List Json)
    (hcf : dictGet kvs "citations_found".data = some (.jarr xs))
    (hcounts : dictGet kvs "counts".data = none ∨
      ∃ ckvs, dictGet kvs "counts".data = some (.jobj ckvs)) :
    ∃ r, mkAnalysisResult (.jobj kvs) = .ok r ∧
      r.total_citations = .jnum (xs.length : Int) := by
  rcases hcounts with hc | ⟨ckvs, hc⟩
  · simp only [mkAnalysisResult, hc, hcf, Option.getD, pyLen, Except.map]
    exact ⟨_, rfl, rfl⟩
  · simp only [mkAnalysisResult, hc, hcf, Option.getD, pyLen, Except.map]
    exact ⟨_, rfl, rfl⟩

/-- C8, witness.  A three-element legacy array with no `counts` key
yields `total_citations = 3`. -/
theorem c8_witness :
    ∃ r, mkAnalysisResult (.jobj
        [("citations_found".data, .jarr [.jnull, .jnull, .jnull])]) = .ok r ∧
      r.total_citations = .jnum 3 :=
  c8_legacy_array_overrides _ [.jnull, .jnull, .jnull] rfl (.inl rfl)

/-! ### C6: orchestration of the model calls -/

theorem appRunAnalysis_calls (t : String) (calls : List ModelCall) :
    (appRunAnalysis t calls).2 = calls ++ [ModelCall.analysis] := by
  cases h : analyzeReply t.data with
  | error e => simp [appRunAnalysis, h]
  | ok r =>
    cases hre : r.error with
    | none => simp [appRunAnalysis, h, hre]
    | some e2 =>
      simp only [appRunAnalysis, h, hre]
      split <;> rfl

/-- C6, counterexample.  With an empty bibliography stream and the
classification replying the sentinel, the route returns the
`BibliographyNotFound` error *immediately*: the analysis call does not
proceed — exactly one model call is made, refuting the claim that "the
analysis call still proceeds with an empty bibliography stream". -/
theorem c6_counterexample :
    (appAnalyze c6Req "NO_BIBLIOGRAPHY_FOUND" "reply").1 =
      AppResponse.err 400 ErrKind.bibNotFound ∧
    (appAnalyze c6Req "NO_BIBLIOGRAPHY_FOUND" "reply").2 = [ModelCall.classify] ∧
    ModelCall.analysis ∉ (appAnalyze c6Req "NO_BIBLIOGRAPHY_FOUND" "reply").2 := by
  refine ⟨rfl, by decide, by decide⟩

/-- C6, amended.  For a request whose document splits to an empty
bibliography stream, exactly one classification call is made; when it
returns the sentinel the route surfaces the `BibliographyNotFound`
error at once *without* making the analysis call (one model call in
total), and when it returns usable text the analysis call proceeds
(exactly two calls, classification first). -/
theorem c6_sentinel_skips_analysis (req : AnalyzeRequest)
    (detectReply analyzeReplyText : String) (m b : String)
    (hfile : req.hasFile = true)
    (hname : req.filename ≠ "")
    (hext : (strEndsWith ".docx" (pyLowerStr req.filename) ||
             strEndsWith ".html" (pyLowerStr req.filename) ||
             strEndsWith ".htm" (pyLowerStr req.filename)) = true)
    (hparse : getDocumentText req.file req.filename = .ok (m, b))
    (hempty : pyStripStr b = "") :
    (pyStripStr detectReply = sentinelStr →
      appAnalyze req detectReply analyzeReplyText =
        (.err 400 .bibNotFound, [.classify])) ∧
    (pyStripStr detectReply ≠ sentinelStr → pyStripStr detectReply ≠ "" →
      (appAnalyze req detectReply analyzeReplyText).2 =
        [ModelCall.classify, ModelCall.analysis]) := by
  have hbase : appAnalyze req detectReply analyzeReplyText =
      (match detectBibliographySection detectReply with
       | some det =>
         if det = "" then (.err 400 .bibNotFound, [.classify])
         else appRunAnalysis analyzeReplyText [.classify]
       | none => (.err 400 .bibNotFound, [.classify])) := by
    unfold appAnalyze
    rw [hfile]
    simp only [Bool.not_true, Bool.false_eq_true, if_false]
    rw [if_neg hname, hext]
    simp only [Bool.not_true, Bool.false_eq_true, if_false]
    rw [hparse]
    simp only []
    rw [if_pos hempty]
  constructor
  · intro hsent
    rw [hbase]
    simp [detectBibliographySection, hsent]
  · intro hsent hne
    rw [hbase]
    simp only [detectBibliographySection]
    rw [if_neg hsent]
    simp only []
    rw [if_neg hne]
    exact appRunAnalysis_calls _ _

/-- C6, witness.  The amended theorem at the concrete request: the
sentinel branch applies. -/
theorem c6_witness :
    appAnalyze c6Req "NO_BIBLIOGRAPHY_FOUND" "some reply" =
      (.err 400 .bibNotFound, [.classify]) :=
  (c6_sentinel_skips_analysis c6Req "NO_BIBLIOGRAPHY_FOUND" "some reply" "hello" ""
    rfl (by decide) (by decide) rfl rfl).1 rfl

/-! ### C9: unsupported file extensions -/

/-- C9.  For every filename whose lowered form ends in none of
`.docx`/`.html`/`.htm`, the split operation fails with the
`UnsupportedFormat`-class `ValueError`, and the route reports the
unsupported-format error with no model call at all. -/
theorem c9_unsupported_extension (req : AnalyzeRequest) (dr ar : String)
    (hfile : req.hasFile = true)
    (hname : req.filename ≠ "")
    (hext : (strEndsWith ".docx" (pyLowerStr req.filename) ||
             strEndsWith ".html" (pyLowerStr req.filename) ||
             strEndsWith ".htm" (pyLowerStr req.filename)) = false) :
    getDocumentText req.file req.filename = .error PyExc.valueError ∧
    appAnalyze req dr ar = (.err 400 .badExtension, []) := by
  have h1 : strEndsWith ".docx" (pyLowerStr req.filename) = false := by
    rcases Bool.eq_false_or_eq_true (strEndsWith ".docx" (pyLowerStr req.filename)) with
      h | h
    · rw [h] at hext; simp at hext
    · exact h
  have h2 : strEndsWith ".html" (pyLowerStr req.filename) = false := by
    rcases Bool.eq_false_or_eq_true (strEndsWith ".html" (pyLowerStr req.filename)) with
      h | h
    · rw [h] at hext; simp at hext
    · exact h
  have h3 : strEndsWith ".htm" (pyLowerStr req.filename) = false := by
    rcases Bool.eq_false_or_eq_true (strEndsWith ".htm" (pyLowerStr req.filename)) with
      h | h
    · rw [h] at hext; simp at hext
    · exact h
  constructor
  · simp [getDocumentText, h1, h2, h3]
  · unfold appAnalyze
    rw [hfile]
    simp only [Bool.not_true, Bool.false_eq_true, if_false]
    rw [if_neg hname, hext]
    simp

/-- C9, witness.  A `.pdf` upload: `ValueError` from the split and
the 400 unsupported-format response with an empty call log. -/
theorem c9_witness :
    getDocumentText (RawFile.mk [] []) "report.pdf" = .error PyExc.valueError ∧
    appAnalyze ⟨true, "report.pdf", RawFile.mk [] []⟩ "d" "a" =
      (.err 400 .badExtension, []) :=
  c9_unsupported_extension ⟨true, "report.pdf", RawFile.mk [] []⟩ "d" "a"
    rfl (by decide) (by decide)

/-! ### C10: the decoding chain -/

/-- C10.  The latin-1 decode succeeds on every byte sequence (each
byte maps to the code point of its value), so the decoding chain always
stops at the first or second branch: the cp1252 attempt and the
utf-8-with-replacement fallback are unreachable. -/
theorem c10_decode_chain_total (bs : List Byte) :
    decodeLatin1 bs = some (bs.map fun b => Char.ofNat b.val) ∧
    ((decodeHtmlBytes bs).2 = DecodeBranch.utf8Branch ∨
     (decodeHtmlBytes bs).2 = DecodeBranch.latin1Branch) := by
  refine ⟨rfl, ?_⟩
  unfold decodeHtmlBytes
  cases decodeUtf8 bs with
  | some s => simp
  | none => simp [decodeLatin1]

end SepCore
